import Mathlib

/-!
Co-occurrence matrix builder (`get_matrix.cpp`).

A shallow embedding of the accumulation engine of `get_matrix.cpp` and of the
vocabulary-index construction of its `main`, followed by the properties of the
specification that were checked against it.

Modelling conventions.

* A `std::string` is a list of characters (`Str`); each character stands for one
  `char` of the C++ string.  The program never calls `setlocale`, so character
  classification is that of the "C" locale: only ASCII letters and digits are
  alphanumeric, only ASCII upper-case letters are changed by `tolower`; a `char`
  outside ASCII is neither whitespace nor alphanumeric.
* `int` values are `Int`, `size_t` values are `Nat`; the one place where the
  source mixes both (`i + window_size + 1`, line 53) is computed modulo `2^64`.
* `float`/`double` weights are exact rationals (`ℚ`), so `static_cast<float>` is
  the identity in the model.
* `std::unordered_map` is an association list with unique keys; `operator[]`
  inserts a value-initialised entry at the end when the key is absent.  The
  iteration order of the list is an artefact of the model.
* An unchecked `operator[]` read outside a vector (undefined behaviour in C++)
  makes the model return `none`.
* The library calls `std::sort`, `std::getline` and `std::stoi` are modelled by
  their specification in the C++ standard.

The vocabulary stage `get_vocabulary.cpp` (`splitTextIntoWords`, `processBatch`
and the loop of its `main`) is embedded in the same way.
-/

namespace CoMatrix

/-- A C++ `std::string`, one `Char` per `char`. -/
abbrev Str := List Char

/-- The key type `std::pair<int, int>` of the co-occurrence matrix. -/
abbrev Key := Int × Int

/-- The accumulator `std::unordered_map<std::pair<int,int>, float, PairHash>`. -/
abbrev Matrix := List (Key × ℚ)

/-- The vocabulary index `std::unordered_map<std::string, int>`. -/
abbrev WordIndex := List (Str × Int)

/-- Number of values of the 64-bit `size_t`. -/
def SIZE_MOD : Nat := 2 ^ 64

/-- Conversion of an `int` to `size_t` (value modulo `2^64`). -/
def toSizeT (x : Int) : Nat := (x % (SIZE_MOD : Int)).toNat

/-- `std::isspace` in the "C" locale: space, `\t`, `\n`, `\v`, `\f`, `\r`. -/
def isspace (c : Char) : Bool :=
  c.toNat == 32 || (9 ≤ c.toNat && c.toNat ≤ 13)

/-- `std::isalnum` in the "C" locale. -/
def isalnum (c : Char) : Bool :=
  (48 ≤ c.toNat && c.toNat ≤ 57) || (65 ≤ c.toNat && c.toNat ≤ 90) ||
    (97 ≤ c.toNat && c.toNat ≤ 122)

/-- `std::tolower` in the "C" locale. -/
def tolower (c : Char) : Char :=
  if 65 ≤ c.toNat ∧ c.toNat ≤ 90 then Char.ofNat (c.toNat + 32) else c

/-- Lines 35-40 of `processChunk`: the loop `for (char c : word)` that appends the
lower-cased alphanumeric characters of `word` to `clean_word`. -/
def cleanLoop : Str → Str → Str
  | [], clean_word => clean_word
  | c :: rest, clean_word =>
    if isalnum c then cleanLoop rest (clean_word ++ [tolower c])
    else cleanLoop rest clean_word

/-- The value of `clean_word` after the loop, starting from the empty string. -/
def cleanWord (word : Str) : Str := cleanLoop word []

/-- The sequence of strings produced by repeated `iss >> word` on a stream over
`line`: leading whitespace is skipped, then characters are taken up to the next
whitespace or the end of input; extraction fails when no character is left.
`cur` is the word being read (empty while whitespace is being skipped). -/
def extractWords : Str → Str → List Str
  | [], cur => if cur = [] then [] else [cur]
  | c :: rest, cur =>
    if isspace c then
      (if cur = [] then extractWords rest [] else cur :: extractWords rest [])
    else extractWords rest (cur ++ [c])

/-- `word_to_index.find(w)` / `word_to_index.at(w)`: the value stored under `w`. -/
def findWord (word_to_index : WordIndex) (w : Str) : Option Int :=
  match word_to_index with
  | [] => none
  | (k, v) :: rest => if k = w then some v else findWord rest w

/-- Lines 33-48: the body of `while (iss >> word)`, run over the extracted
words; `indices` is the vector built so far. -/
def indexLoop (word_to_index : WordIndex) : List Str → List Int → List Int
  | [], indices => indices
  | word :: rest, indices =>
    let clean_word := cleanWord word
    match decide (clean_word.length ≤ 2), findWord word_to_index clean_word with
    | false, some id => indexLoop word_to_index rest (indices ++ [id])
    | _, _ => indexLoop word_to_index rest indices

/-- Lines 28-48: the vector `indices` of one line. -/
def lineIndices (word_to_index : WordIndex) (line : Str) : List Int :=
  indexLoop word_to_index (extractWords line []) []

/-- Line 65, `matrix[key] += delta`: `operator[]` creates the entry with value
`0` when the key is absent, then `delta` is added to the stored value. -/
def addWeight : Matrix → Key → ℚ → Matrix
  | [], key, delta => [(key, 0 + delta)]
  | (k, v) :: rest, key, delta =>
    if k = key then (k, v + delta) :: rest else (k, v) :: addWeight rest key delta

/-- Lines 55-66: the inner loop `for (size_t j = i + 1; j < window_end; ++j)`.
`steps` is the number of iterations left (`window_end - j`), `idx1` the current
value of the variable `idx1`, which line 61 may overwrite. -/
def innerLoop (indices : List Int) (weights : List ℚ) (i : Nat) :
    Nat → Nat → Int → Matrix → Option Matrix
  | 0, _, _, matrix => some matrix
  | steps + 1, j, idx1, matrix =>
    match indices[j]?, weights[j - i - 1]? with
    | some idx2, some weight =>
      -- `if (idx1 > idx2) std::swap(idx1, idx2);`
      let idx1' := if idx1 > idx2 then idx2 else idx1
      let idx2' := if idx1 > idx2 then idx1 else idx2
      innerLoop indices weights i steps (j + 1) idx1'
        (addWeight matrix (idx1', idx2') weight)
    | _, _ => none

/-- Line 53: `std::min(i + window_size + 1, indices.size())`, the sum being
evaluated in `size_t`. -/
def windowEnd (i : Nat) (window_size : Int) (size : Nat) : Nat :=
  min ((i + toSizeT window_size + 1) % SIZE_MOD) size

/-- Lines 51-67: the outer loop `for (size_t i = 0; i < indices.size(); ++i)`;
`steps` is the number of iterations left. -/
def outerLoop (indices : List Int) (window_size : Int) (weights : List ℚ) :
    Nat → Nat → Matrix → Option Matrix
  | 0, _, matrix => some matrix
  | steps + 1, i, matrix =>
    match indices[i]? with
    | some idx1 =>
      let window_end := windowEnd i window_size indices.length
      match innerLoop indices weights i (window_end - (i + 1)) (i + 1) idx1 matrix with
      | some matrix' => outerLoop indices window_size weights steps (i + 1) matrix'
      | none => none
    | none => none

/-- Lines 51-67 for one id sequence. -/
def processIndices (indices : List Int) (matrix : Matrix) (window_size : Int)
    (weights : List ℚ) : Option Matrix :=
  outerLoop indices window_size weights indices.length 0 matrix

/-- Lines 27-68 for one line of the chunk. -/
def processLine (word_to_index : WordIndex) (window_size : Int) (weights : List ℚ)
    (matrix : Matrix) (line : Str) : Option Matrix :=
  processIndices (lineIndices word_to_index line) matrix window_size weights

/-- The function `processChunk` (lines 20-69); the result is the final value of
the reference parameter `matrix`. -/
def processChunk (chunk : List Str) (matrix : Matrix) (word_to_index : WordIndex)
    (window_size : Int) (weights : List ℚ) : Option Matrix :=
  match chunk with
  | [] => some matrix
  | line :: rest =>
    match processLine word_to_index window_size weights matrix line with
    | some matrix' => processChunk rest matrix' word_to_index window_size weights
    | none => none

/-- Lines 95-98 of `main`: the weight table, `weights[i] = 1.0 / (i + 1)`, for a
`window_size ≥ 0` (the constructor of the vector throws for a negative one). -/
def mkWeights (window_size : Nat) : List ℚ :=
  (List.range window_size).map (fun (i : Nat) => 1 / ((i : ℚ) + 1))

/-- Lines 199-226 of `main`: lines are pushed onto `chunk`; a chunk that has
reached `CHUNK_SIZE` lines is processed and cleared, and the non-empty rest is
processed after the last line.  `lines` are the lines still to be read. -/
def readLoop (CHUNK_SIZE : Nat) (word_to_index : WordIndex) (window_size : Int)
    (weights : List ℚ) : List Str → List Str → Matrix → Option Matrix
  | [], chunk, matrix =>
    if chunk ≠ [] then processChunk chunk matrix word_to_index window_size weights
    else some matrix
  | line :: lines, chunk, matrix =>
    let chunk' := chunk ++ [line]
    if chunk'.length ≥ CHUNK_SIZE then
      match processChunk chunk' matrix word_to_index window_size weights with
      | some matrix' => readLoop CHUNK_SIZE word_to_index window_size weights lines [] matrix'
      | none => none
    else readLoop CHUNK_SIZE word_to_index window_size weights lines chunk' matrix

/-- Conversion of a `size_t` to `int` (32-bit two's complement), as in the
assignment `word_to_index[...] = i` of line 165. -/
def toInt (n : Nat) : Int :=
  if n % 2 ^ 32 < 2 ^ 31 then ((n % 2 ^ 32 : Nat) : Int)
  else ((n % 2 ^ 32 : Nat) : Int) - 2 ^ 32

/-- Line 165, `word_to_index[key] = value`: the value of an existing entry is
overwritten, a missing entry is created. -/
def assign : WordIndex → Str → Int → WordIndex
  | [], key, value => [(key, value)]
  | (k, v) :: rest, key, value =>
    if k = key then (k, value) :: rest else (k, v) :: assign rest key value

/-- The comparison passed to `std::sort` (lines 156-158): `a.second > b.second`. -/
def comp (a b : Str × Int) : Bool := decide (a.2 > b.2)

/-- The guarantee of `std::sort(first, last, comp)` (lines 155-158): the range
holds a permutation of its former content in which no element is ordered by
`comp` before an element that precedes it.  `std::sort` is not stable, so the
relative order of elements that `comp` does not separate is not determined. -/
def SortResult (input output : List (Str × Int)) : Prop :=
  output.Perm input ∧ output.Pairwise (fun a b => comp b a = false)

/-- Lines 164-167: the loop `for (size_t i = 0; i < vocab_size; ++i)`, run over
the rows `word_counts[i]`, `i < vocab_size`, that it reads; `i` is the loop
counter. -/
def buildLoop : List (Str × Int) → Nat → WordIndex → List Str → WordIndex × List Str
  | [], _, word_to_index, index_to_word => (word_to_index, index_to_word)
  | row :: rest, i, word_to_index, index_to_word =>
    buildLoop rest (i + 1) (assign word_to_index row.1 (toInt i)) (index_to_word ++ [row.1])

/-- Line 161: `vocab_size = std::min(word_counts.size(), top_words)`. -/
def vocabSize (word_counts : List (Str × Int)) (top_words : Nat) : Nat :=
  min word_counts.length top_words

/-- Lines 160-167 of `main`: the pair `(word_to_index, index_to_word)` built from
the sorted vector `word_counts` and the cap `top_words`. -/
def buildIndex (word_counts : List (Str × Int)) (top_words : Nat) :
    WordIndex × List Str :=
  buildLoop (word_counts.take (vocabSize word_counts top_words)) 0 [] []

/-- Lines 243-247 of `main`: one output row per matrix entry, the two words being
read with the unchecked `index_to_word[...]` (the `int` id converted to
`size_t`). -/
def writeRows (index_to_word : List Str) : Matrix → Option (List (Str × Str × ℚ))
  | [] => some []
  | ((a, b), v) :: rest =>
    match index_to_word[toSizeT a]?, index_to_word[toSizeT b]?,
        writeRows index_to_word rest with
    | some word1, some word2, some rows => some ((word1, word2, v) :: rows)
    | _, _, _ => none

/-! ### Vocabulary of the specification -/

/-- The keys stored in the accumulator. -/
def keys (matrix : Matrix) : List Key := matrix.map Prod.fst

/-- The weight stored under `key`, if any. -/
def weightOf : Matrix → Key → Option ℚ
  | [], _ => none
  | (k, v) :: rest, key => if k = key then some v else weightOf rest key

/-- Every key of the accumulator is a pair `(lo, hi)` with `lo ≤ hi`. -/
def KeysOrdered (matrix : Matrix) : Prop := ∀ key ∈ keys matrix, key.1 ≤ key.2

/-- Every key of the accumulator has both components in `[0, V)`. -/
def KeysBelow (V : Nat) (matrix : Matrix) : Prop :=
  ∀ key ∈ keys matrix, (0 ≤ key.1 ∧ key.1 < V) ∧ (0 ≤ key.2 ∧ key.2 < V)

/-- The canonical pair of two ids, `(min x y, max x y)`. -/
def canonical (x y : Int) : Key := (min x y, max x y)

/-- The weight the specification assigns to `key` for the id sequence `ids` and
window size `w`: the sum of `1/(j-i)` over the index pairs `i < j ≤ min(i+w, n-1)`
whose canonical pair `(min(ids[i],ids[j]), max(ids[i],ids[j]))` is `key`. -/
def specWeight (ids : List Int) (w : Nat) (key : Key) : ℚ :=
  ((List.range ids.length).map fun i =>
    ((List.range ids.length).map fun j =>
      if i < j ∧ j ≤ min (i + w) (ids.length - 1) ∧
          canonical (ids.getD i 0) (ids.getD j 0) = key
      then 1 / ((j : ℚ) - (i : ℚ)) else 0).sum).sum

/-- The normalisation of the specification: keep only the alphanumeric
characters, lower-cased. -/
def specNormalise (token : Str) : Str := (token.filter isalnum).map tolower

/-- The whitespace-separated raw tokens of a line. -/
def specTokens (line : Str) : List Str :=
  (line.splitOnP isspace).filter (fun token => token ≠ [])

/-- The id sequence of the specification: the ids of the raw tokens whose
normalisation has length `> 2` and is a key of the index, in order. -/
def specLineIds (word_to_index : WordIndex) (line : Str) : List Int :=
  (specTokens line).filterMap fun token =>
    if (specNormalise token).length > 2 then findWord word_to_index (specNormalise token)
    else none

/-- The accumulator `matrix'` extends `matrix`: every key of `matrix` is a key of
`matrix'` with a weight at least as large, and every key of `matrix'` that
`matrix` does not have carries a positive weight. -/
def Grows (matrix matrix' : Matrix) : Prop :=
  (∀ k v, weightOf matrix k = some v → ∃ v', weightOf matrix' k = some v' ∧ v ≤ v') ∧
    (∀ k v', weightOf matrix k = none → weightOf matrix' k = some v' → 0 < v')

/-- The minimum of `ids[i], ..., ids[j-1]`. -/
def runningMin (ids : List Int) (i j : Nat) : Int :=
  (List.range' i (j - i)).foldl (fun m k => min m (ids.getD k 0)) (ids.getD i 0)

/-- The pair `(min(m, ids[j]), max(m, ids[j]))` with `m` the minimum of
`ids[i], ..., ids[j-1]`. -/
def actualKey (ids : List Int) (i j : Nat) : Key :=
  (min (runningMin ids i j) (ids.getD j 0), max (runningMin ids i j) (ids.getD j 0))

/-- The updates `(key, delta)` for the index pairs `i < j ≤ min(i+w, n-1)`, by
increasing `i` and, for each `i`, increasing `j`: the key is `actualKey ids i j`
and `delta` is `1/(j-i)`. -/
def actualUpdates (ids : List Int) (w : Nat) : List (Key × ℚ) :=
  (List.range ids.length).flatMap fun i =>
    (List.range' (i + 1) (min (i + w) (ids.length - 1) - i)).map fun (j : Nat) =>
      (actualKey ids i j, 1 / ((j : ℚ) - (i : ℚ)))

/-- The accumulator after a list of updates `matrix[key] += delta`. -/
def applyUpdates (matrix : Matrix) (updates : List (Key × ℚ)) : Matrix :=
  updates.foldl (fun m u => addWeight m u.1 u.2) matrix

/-! ### Loading the vocabulary (`main`, lines 113-151) -/

/-- State of the `std::istringstream iss(line)` of line 121: the characters not
yet read and the `eofbit`.  A failed extraction ends the `&&` chain of lines
125-128, so the `failbit` is not stored. -/
structure LineStream where
  rest : Str
  eof : Bool

/-- Reading up to the delimiter: the characters before the first `delim`, and the
characters after it when there is one. -/
def readUntil (delim : Char) : Str → Str × Option Str
  | [] => ([], none)
  | c :: cs =>
    if c = delim then ([], some cs)
    else ((c :: (readUntil delim cs).1), (readUntil delim cs).2)

/-- The library call `std::getline(iss, field, delim)` as used on lines 125-128:
it fails on a stream whose `eofbit` is set; otherwise it extracts the characters
up to the next `delim`, which it discards; when the input ends first the
`eofbit` is set and the call fails if no character was extracted. -/
def getline (stream : LineStream) (delim : Char) : Option (Str × LineStream) :=
  if stream.eof then none
  else
    match readUntil delim stream.rest with
    | (field, some rest) => some (field, ⟨rest, false⟩)
    | (field, none) => if field = [] then none else some (field, ⟨[], true⟩)

/-- `std::isdigit` in the "C" locale. -/
def isdigit (c : Char) : Bool := 48 ≤ c.toNat && c.toNat ≤ 57

/-- The value of a string of decimal digits. -/
def digitsValue (digits : Str) : Nat :=
  digits.foldl (fun acc c => 10 * acc + (c.toNat - 48)) 0

/-- The exceptions thrown by `std::stoi`, both derived from `std::exception`. -/
inductive StoiError where
  | invalid_argument
  | out_of_range
  deriving DecidableEq

/-- The library call `std::stoi(str)` (base 10, through `strtol`): leading
whitespace is skipped, an optional sign is read, then the longest run of decimal
digits; what follows the digits is ignored.  It throws `invalid_argument` when
there is no digit and `out_of_range` when the value is not an `int`. -/
def stoi (str : Str) : Except StoiError Int :=
  let body := str.dropWhile isspace
  let negative := decide (body.head? = some '-')
  let unsigned := match body with
    | '-' :: t => t
    | '+' :: t => t
    | _ => body
  let digits := unsigned.takeWhile isdigit
  if digits = [] then Except.error StoiError.invalid_argument
  else
    let value : Int := if negative then -((digitsValue digits : Nat) : Int)
      else ((digitsValue digits : Nat) : Int)
    if value < -(2 ^ 31) ∨ 2 ^ 31 - 1 < value then Except.error StoiError.out_of_range
    else Except.ok value

/-- Lines 131-136 of `main`: the loop `for (char c : word)` that appends the
lower-cased alphanumeric characters of the vocabulary `word` to `clean_word`. -/
def normalizeLoop : Str → Str → Str
  | [], clean_word => clean_word
  | c :: rest, clean_word =>
    if isalnum c then normalizeLoop rest (clean_word ++ [tolower c])
    else normalizeLoop rest clean_word

/-- The value of `clean_word` after the loop of lines 131-136. -/
def normalizeWord (word : Str) : Str := normalizeLoop word []

/-- Lines 121-150, the body of the loop over the data lines of the vocabulary
file: the entry appended to `word_counts` for `line`, or `none` when the line
appends nothing (a failed `getline`, the `continue` of the `catch` block, or a
normalised word of length `≤ 2`). -/
def parseRow (line : Str) : Option (Str × Int) :=
  match getline ⟨line, false⟩ ',' with
  | none => none
  | some (word, s1) =>
    match getline s1 ',' with
    | none => none
    | some (_, s2) =>
      match getline s2 ',' with
      | none => none
      | some (word_count_str, s3) =>
        match getline s3 '\n' with
        | none => none
        | some _ =>
          let clean_word := normalizeWord word
          match stoi word_count_str with
          | Except.error _ => none
          | Except.ok word_count =>
            if clean_word ≠ [] ∧ clean_word.length > 2 then some (clean_word, word_count)
            else none

/-- Lines 120-151: the loop `while (std::getline(vocab_in, line))` over the data
lines (the header line has been read at line 115); `word_counts` is the vector
built so far. -/
def loadRows : List Str → List (Str × Int) → List (Str × Int)
  | [], word_counts => word_counts
  | line :: rest, word_counts =>
    match parseRow line with
    | some entry => loadRows rest (word_counts ++ [entry])
    | none => loadRows rest word_counts

/-- A word count as the claim reads it: an optionally signed, non-empty string of
decimal digits. -/
def specNumeric (field : Str) : Bool :=
  match field with
  | '-' :: t => !t.isEmpty && t.all isdigit
  | '+' :: t => !t.isEmpty && t.all isdigit
  | _ => !field.isEmpty && field.all isdigit

/-- The rows that contribute an entry as the claim reads them: the row has the
four comma-separated fields, its third field is numeric and the normalisation
of its first field has length `> 2`. -/
def specAdmits (row : Str) : Bool :=
  match row.splitOn ',' with
  | [word, _, word_count, _] => specNumeric word_count && decide ((specNormalise word).length > 2)
  | _ => false

/-! ### The vocabulary stage (`get_vocabulary.cpp`) -/

/-- `std::ispunct` in the "C" locale: the printable ASCII characters that are
neither alphanumeric nor the space. -/
def ispunct (c : Char) : Bool :=
  (33 ≤ c.toNat && c.toNat ≤ 47) || (58 ≤ c.toNat && c.toNat ≤ 64) ||
    (91 ≤ c.toNat && c.toNat ≤ 96) || (123 ≤ c.toNat && c.toNat ≤ 126)

/-- Lines 25-37 of `splitTextIntoWords`: the body of `while (iss >> word)`, run
over the extracted words: the word is lower-cased, its punctuation characters
are erased, and it is pushed when it is not empty. -/
def splitLoop : List Str → List Str → List Str
  | [], words => words
  | word :: rest, words =>
    let lowered := word.map tolower
    let cleaned := lowered.filter (fun c => !ispunct c)
    if cleaned ≠ [] then splitLoop rest (words ++ [cleaned]) else splitLoop rest words

/-- The function `splitTextIntoWords` (lines 19-39). -/
def splitTextIntoWords (text : Str) : List Str :=
  splitLoop (extractWords text []) []

/-- The structure `WordStats` (lines 13-16), both members initialised to `0`. -/
structure WordStats where
  wordCount : Int := 0
  documentCount : Int := 0
  deriving DecidableEq

/-- The map `std::unordered_map<std::string, WordStats>`. -/
abbrev Vocabulary := List (Str × WordStats)

/-- The value of an `int` expression in 32-bit two's complement. -/
def wrap32 (x : Int) : Int := (x + 2 ^ 31) % 2 ^ 32 - 2 ^ 31

/-- The increment `x++` of an `int` (signed overflow, undefined in C++, wraps in
the model). -/
def incrInt (x : Int) : Int := wrap32 (x + 1)

/-- `vocabulary.find(word)`: the statistics stored under `word`. -/
def findStats : Vocabulary → Str → Option WordStats
  | [], _ => none
  | (k, stats) :: rest, word => if k = word then some stats else findStats rest word

/-- Line 59, `vocabulary[word].wordCount++`: `operator[]` creates a
value-initialised entry when `word` is absent. -/
def bumpWordCount : Vocabulary → Str → Vocabulary
  | [], word => [(word, { wordCount := incrInt 0, documentCount := 0 })]
  | (k, stats) :: rest, word =>
    if k = word then
      (k, { wordCount := incrInt stats.wordCount, documentCount := stats.documentCount })
        :: rest
    else (k, stats) :: bumpWordCount rest word

/-- Line 65, `vocabulary[word].documentCount++`. -/
def bumpDocumentCount : Vocabulary → Str → Vocabulary
  | [], word => [(word, { wordCount := 0, documentCount := incrInt 0 })]
  | (k, stats) :: rest, word =>
    if k = word then
      (k, { wordCount := stats.wordCount, documentCount := incrInt stats.documentCount })
        :: rest
    else (k, stats) :: bumpDocumentCount rest word

/-- Line 60, `uniqueWords.insert(word)` on the `std::unordered_set`. -/
def insertUnique (uniqueWords : List Str) (word : Str) : List Str :=
  if word ∈ uniqueWords then uniqueWords else uniqueWords ++ [word]

/-- Lines 58-61: the loop `for (const auto& word : words)`. -/
def countWords : List Str → Vocabulary → List Str → Vocabulary × List Str
  | [], vocabulary, uniqueWords => (vocabulary, uniqueWords)
  | word :: rest, vocabulary, uniqueWords =>
    countWords rest (bumpWordCount vocabulary word) (insertUnique uniqueWords word)

/-- Lines 64-66: the loop `for (const auto& word : uniqueWords)`; the set is
visited in the order of insertion (the order of a `std::unordered_set` is
unspecified; every word of the set is visited once). -/
def countDocuments : List Str → Vocabulary → Vocabulary
  | [], vocabulary => vocabulary
  | word :: rest, vocabulary => countDocuments rest (bumpDocumentCount vocabulary word)

/-- Lines 52-66: the update of `vocabulary` for one line read by `processBatch`. -/
def processDocument (vocabulary : Vocabulary) (line : Str) : Vocabulary :=
  countDocuments (countWords (splitTextIntoWords line) vocabulary []).2
    (countWords (splitTextIntoWords line) vocabulary []).1

/-- The input `std::ifstream`: the lines not yet read and whether the stream is
`good()`.  Reading past the last line clears `good()`.  (When the last line has
no final newline the stream of the program leaves `good()` on reading that line
already; this only spares a last call of `processBatch` that reads nothing.) -/
structure FileStream where
  lines : List Str
  good : Bool

/-- Lines 50-71 of `processBatch`: the loop
`while (batchCount < batchSize && std::getline(inputFile, line))`; the arguments
are the lines not yet read, `good()`, `batchCount` and the vocabulary.  The
counters `totalProcessed` and `lineNumber` are only printed and are left out. -/
def batchLoop (batchSize : Int) : List Str → Bool → Int → Vocabulary →
    Vocabulary × FileStream
  | [], good, batchCount, vocabulary =>
    if batchCount < batchSize then (vocabulary, ⟨[], false⟩)
    else (vocabulary, ⟨[], good⟩)
  | line :: rest, good, batchCount, vocabulary =>
    if batchCount < batchSize then
      (if good then
        batchLoop batchSize rest true (batchCount + 1) (processDocument vocabulary line)
      else (vocabulary, ⟨line :: rest, false⟩))
    else (vocabulary, ⟨line :: rest, good⟩)

/-- The function `processBatch` (lines 42-78): the new vocabulary and the state in
which it leaves the input file. -/
def processBatch (inputFile : FileStream) (vocabulary : Vocabulary) (batchSize : Int) :
    Vocabulary × FileStream :=
  batchLoop batchSize inputFile.lines inputFile.good 0 vocabulary

/-- Lines 156-158 of `main` in `get_vocabulary.cpp`: the loop
`while (inputFile.good() && !inputFile.eof()) processBatch(...)`, run for at most
`fuel` iterations; `none` when the loop has not ended by then. -/
def batchesLoop (batchSize : Int) : Nat → FileStream → Vocabulary → Option Vocabulary
  | 0, _, _ => none
  | fuel + 1, inputFile, vocabulary =>
    if inputFile.good then
      batchesLoop batchSize fuel (processBatch inputFile vocabulary batchSize).2
        (processBatch inputFile vocabulary batchSize).1
    else some vocabulary

/-- The vocabulary after the lines `lines` have been consumed one after another. -/
def processLines (lines : List Str) (vocabulary : Vocabulary) : Vocabulary :=
  lines.foldl processDocument vocabulary

/-- The total number of occurrences of `word` in `splitTextIntoWords` of all
lines. -/
def specWordCount (lines : List Str) (word : Str) : Nat :=
  ((lines.map splitTextIntoWords).flatten).count word

/-- The number of lines in which `word` occurs at least once. -/
def specDocumentCount (lines : List Str) (word : Str) : Nat :=
  (lines.filter fun line => decide (word ∈ splitTextIntoWords line)).length

/-- The value of `vocabulary[word]`: the stored statistics, or the
value-initialised ones when `word` is absent. -/
def statsOf (vocabulary : Vocabulary) (word : Str) : WordStats :=
  (findStats vocabulary word).getD {}

/-! ## Properties -/

/-! ### The accumulator update -/

theorem mem_keys_addWeight (matrix : Matrix) (key : Key) (delta : ℚ) (k : Key)
    (hk : k ∈ keys (addWeight matrix key delta)) : k = key ∨ k ∈ keys matrix := by
  induction matrix with
  | nil =>
    simp [addWeight, keys] at hk
    exact Or.inl hk
  | cons kv rest ih =>
    obtain ⟨k0, v0⟩ := kv
    by_cases h : k0 = key
    · simp only [addWeight, keys, h, if_true, List.map_cons, List.mem_cons] at hk ⊢
      rcases hk with hk | hk
      · exact Or.inl hk
      · exact Or.inr (Or.inr hk)
    · simp only [addWeight, keys, h, if_false, List.map_cons, List.mem_cons] at hk ⊢
      rcases hk with hk | hk
      · exact Or.inr (Or.inl hk)
      · rcases ih hk with h1 | h1
        · exact Or.inl h1
        · exact Or.inr (Or.inr h1)

/-! ### Invariants of the window pass

`P` is a property of keys, `R i j x` a property of the value `x` of the variable
`idx1` when the inner loop of outer index `i` is about to read `indices[j]`. -/

theorem innerLoop_inv (indices : List Int) (weights : List ℚ) (i : Nat)
    (P : Key → Prop) (R : Nat → Int → Prop)
    (hstep : ∀ j x idx2, indices[j]? = some idx2 → R j x →
      P (if x > idx2 then idx2 else x, if x > idx2 then x else idx2) ∧
        R (j + 1) (if x > idx2 then idx2 else x)) :
    ∀ (steps j : Nat) (idx1 : Int) (matrix matrix' : Matrix), R j idx1 →
      (∀ k ∈ keys matrix, P k) →
      innerLoop indices weights i steps j idx1 matrix = some matrix' →
      ∀ k ∈ keys matrix', P k := by
  intro steps
  induction steps with
  | zero =>
    intro j idx1 matrix matrix' _ hm hrun
    simp only [innerLoop, Option.some.injEq] at hrun
    subst hrun
    exact hm
  | succ n ih =>
    intro j idx1 matrix matrix' hR hm hrun
    unfold innerLoop at hrun
    cases hj : indices[j]? with
    | none => simp [hj] at hrun
    | some idx2 =>
      cases hw : weights[j - i - 1]? with
      | none => simp [hj, hw] at hrun
      | some weight =>
        simp only [hj, hw] at hrun
        obtain ⟨hP, hR'⟩ := hstep j idx1 idx2 hj hR
        refine ih (j + 1) _ _ matrix' hR' ?_ hrun
        intro k hk
        rcases mem_keys_addWeight _ _ _ _ hk with h1 | h1
        · rw [h1]; exact hP
        · exact hm k h1

theorem outerLoop_inv (indices : List Int) (window_size : Int) (weights : List ℚ)
    (P : Key → Prop) (R : Nat → Nat → Int → Prop)
    (hinit : ∀ i x, indices[i]? = some x → R i (i + 1) x)
    (hstep : ∀ i j x idx2, indices[j]? = some idx2 → R i j x →
      P (if x > idx2 then idx2 else x, if x > idx2 then x else idx2) ∧
        R i (j + 1) (if x > idx2 then idx2 else x)) :
    ∀ (steps i : Nat) (matrix matrix' : Matrix), (∀ k ∈ keys matrix, P k) →
      outerLoop indices window_size weights steps i matrix = some matrix' →
      ∀ k ∈ keys matrix', P k := by
  intro steps
  induction steps with
  | zero =>
    intro i matrix matrix' hm hrun
    simp only [outerLoop, Option.some.injEq] at hrun
    subst hrun
    exact hm
  | succ n ih =>
    intro i matrix matrix' hm hrun
    unfold outerLoop at hrun
    cases hi : indices[i]? with
    | none => simp [hi] at hrun
    | some idx1 =>
      simp only [hi] at hrun
      cases hin : innerLoop indices weights i
          (windowEnd i window_size indices.length - (i + 1)) (i + 1) idx1 matrix with
      | none => simp [hin] at hrun
      | some m1 =>
        simp only [hin] at hrun
        exact ih (i + 1) m1 matrix'
          (innerLoop_inv indices weights i P (R i) (hstep i) _ _ _ _ _
            (hinit i idx1 hi) hm hin) hrun

theorem processChunk_inv (word_to_index : WordIndex) (window_size : Int)
    (weights : List ℚ) (P : Key → Prop) (R : List Int → Nat → Nat → Int → Prop)
    (chunk : List Str)
    (hinit : ∀ line ∈ chunk, ∀ i x, (lineIndices word_to_index line)[i]? = some x →
      R (lineIndices word_to_index line) i (i + 1) x)
    (hstep : ∀ line ∈ chunk, ∀ i j x idx2,
      (lineIndices word_to_index line)[j]? = some idx2 →
      R (lineIndices word_to_index line) i j x →
      P (if x > idx2 then idx2 else x, if x > idx2 then x else idx2) ∧
        R (lineIndices word_to_index line) i (j + 1) (if x > idx2 then idx2 else x)) :
    ∀ (matrix matrix' : Matrix), (∀ k ∈ keys matrix, P k) →
      processChunk chunk matrix word_to_index window_size weights = some matrix' →
      ∀ k ∈ keys matrix', P k := by
  induction chunk with
  | nil =>
    intro matrix matrix' hm hrun
    simp only [processChunk, Option.some.injEq] at hrun
    subst hrun
    exact hm
  | cons line rest ih =>
    intro matrix matrix' hm hrun
    unfold processChunk at hrun
    cases hl : processLine word_to_index window_size weights matrix line with
    | none => simp [hl] at hrun
    | some m1 =>
      simp only [hl] at hrun
      refine ih (fun l hl' => hinit l (List.mem_cons_of_mem _ hl'))
        (fun l hl' => hstep l (List.mem_cons_of_mem _ hl')) m1 matrix' ?_ hrun
      exact outerLoop_inv (lineIndices word_to_index line) window_size weights P
        (R (lineIndices word_to_index line))
        (hinit line (List.mem_cons_self _ _)) (hstep line (List.mem_cons_self _ _))
        _ _ _ _ hm hl

/-! ### The run is defined when the weight table is long enough -/

theorem innerLoop_isSome (indices : List Int) (weights : List ℚ) (i : Nat) :
    ∀ (steps j : Nat) (idx1 : Int) (matrix : Matrix), i < j →
      j + steps ≤ indices.length → j + steps ≤ i + 1 + weights.length →
      ∃ matrix', innerLoop indices weights i steps j idx1 matrix = some matrix' := by
  intro steps
  induction steps with
  | zero => intro j idx1 matrix _ _ _; exact ⟨matrix, rfl⟩
  | succ n ih =>
    intro j idx1 matrix hij h1 h2
    have hj : j < indices.length := by omega
    have hw : j - i - 1 < weights.length := by omega
    unfold innerLoop
    rw [List.getElem?_eq_getElem hj, List.getElem?_eq_getElem hw]
    exact ih (j + 1) _ _ (by omega) (by omega) (by omega)

theorem windowEnd_le (i : Nat) (window_size : Int) (size : Nat) :
    windowEnd i window_size size ≤ size ∧
      windowEnd i window_size size ≤ i + toSizeT window_size + 1 := by
  unfold windowEnd
  constructor
  · exact min_le_right _ _
  · exact le_trans (min_le_left _ _) (Nat.mod_le _ _)

theorem outerLoop_isSome (indices : List Int) (window_size : Int) (weights : List ℚ)
    (hw : toSizeT window_size ≤ weights.length) :
    ∀ (steps i : Nat) (matrix : Matrix), i + steps ≤ indices.length →
      ∃ matrix', outerLoop indices window_size weights steps i matrix = some matrix' := by
  intro steps
  induction steps with
  | zero => intro i matrix _; exact ⟨matrix, rfl⟩
  | succ n ih =>
    intro i matrix h1
    have hi : i < indices.length := by omega
    obtain ⟨hle1, hle2⟩ := windowEnd_le i window_size indices.length
    obtain ⟨m1, hm1⟩ := innerLoop_isSome indices weights i
      (windowEnd i window_size indices.length - (i + 1)) (i + 1) indices[i] matrix
      (by omega) (by omega) (by omega)
    obtain ⟨m2, hm2⟩ := ih (i + 1) m1 (by omega)
    refine ⟨m2, ?_⟩
    unfold outerLoop
    rw [List.getElem?_eq_getElem hi]
    simp only [hm1, hm2]

theorem processChunk_isSome (word_to_index : WordIndex) (window_size : Int)
    (weights : List ℚ) (hw : toSizeT window_size ≤ weights.length) (chunk : List Str) :
    ∀ matrix : Matrix,
      ∃ matrix', processChunk chunk matrix word_to_index window_size weights
        = some matrix' := by
  induction chunk with
  | nil => intro matrix; exact ⟨matrix, rfl⟩
  | cons line rest ih =>
    intro matrix
    obtain ⟨m1, hm1⟩ := outerLoop_isSome (lineIndices word_to_index line) window_size
      weights hw (lineIndices word_to_index line).length 0 matrix (by omega)
    obtain ⟨m2, hm2⟩ := ih m1
    refine ⟨m2, ?_⟩
    unfold processChunk
    have : processLine word_to_index window_size weights matrix line = some m1 := hm1
    simp only [this, hm2]

/-! ### Ids of a line come from the index -/

theorem findWord_mem (word_to_index : WordIndex) (w : Str) (v : Int)
    (h : findWord word_to_index w = some v) : (w, v) ∈ word_to_index := by
  induction word_to_index with
  | nil => simp [findWord] at h
  | cons kv rest ih =>
    obtain ⟨k0, v0⟩ := kv
    by_cases hk : k0 = w
    · simp only [findWord, hk, if_true, Option.some.injEq] at h
      rw [hk, h]
      exact List.mem_cons_self _ _
    · simp only [findWord, hk, if_false] at h
      exact List.mem_cons_of_mem _ (ih h)

theorem indexLoop_mem (word_to_index : WordIndex) (Q : Int → Prop)
    (hQ : ∀ kv ∈ word_to_index, Q kv.2) :
    ∀ (words : List Str) (indices : List Int), (∀ x ∈ indices, Q x) →
      ∀ x ∈ indexLoop word_to_index words indices, Q x := by
  intro words
  induction words with
  | nil => intro indices h; simpa [indexLoop] using h
  | cons word rest ih =>
    intro indices h
    unfold indexLoop
    cases hf : findWord word_to_index (cleanWord word) with
    | none =>
      cases hd : decide ((cleanWord word).length ≤ 2) <;> simpa [hd, hf] using ih indices h
    | some id =>
      cases hd : decide ((cleanWord word).length ≤ 2)
      · simp only [hd, hf]
        refine ih _ ?_
        intro x hx
        rcases List.mem_append.mp hx with h1 | h1
        · exact h x h1
        · rw [List.mem_singleton.mp h1]
          exact hQ _ (findWord_mem _ _ _ hf)
      · simpa [hd, hf] using ih indices h

theorem lineIndices_mem (word_to_index : WordIndex) (Q : Int → Prop)
    (hQ : ∀ kv ∈ word_to_index, Q kv.2) (line : Str) :
    ∀ x ∈ lineIndices word_to_index line, Q x :=
  indexLoop_mem word_to_index Q hQ _ [] (by simp)

theorem two_le_count_of_getElem? (l : List Int) (a : Int) :
    ∀ k j : Nat, k < j → l[k]? = some a → l[j]? = some a → 2 ≤ l.count a := by
  induction l with
  | nil => intro k j _ h; simp at h
  | cons x t ih =>
    intro k j hkj hk hj
    obtain ⟨j', rfl⟩ : ∃ j', j = j' + 1 := ⟨j - 1, by omega⟩
    rw [List.getElem?_cons_succ] at hj
    cases k with
    | zero =>
      simp only [List.getElem?_cons_zero, Option.some.injEq] at hk
      subst hk
      have hmem : x ∈ t := List.getElem?_mem hj
      have := List.count_pos_iff.mpr hmem
      rw [List.count_cons_self]
      omega
    | succ k' =>
      rw [List.getElem?_cons_succ] at hk
      have := ih k' j' (by omega) hk hj
      exact le_trans this (List.count_le_count_cons _ _ _)

/-! ### A run used by several examples -/

theorem lineIndices_cat_sat :
    lineIndices [("cat".toList, 0), ("sat".toList, 1)] "the cat sat on it".toList
      = [0, 1] := by decide

theorem processChunk_cat_sat :
    processChunk ["the cat sat on it".toList] []
      [("cat".toList, 0), ("sat".toList, 1)] 1 (mkWeights 1) = some [((0, 1), 1)] := by
  simp only [processChunk, processLine, lineIndices_cat_sat]
  simp [processIndices, outerLoop,
    innerLoop, windowEnd, toSizeT, SIZE_MOD, mkWeights, addWeight, List.range,
    List.range.loop]

theorem lineIndices_cat_cat :
    lineIndices [("cat".toList, 0)] "cat cat".toList = [0, 0] := by decide

theorem processChunk_cat_cat :
    processChunk ["cat cat".toList] [] [("cat".toList, 0)] 1 (mkWeights 1)
      = some [((0, 0), 1)] := by
  simp only [processChunk, processLine, lineIndices_cat_cat]
  simp [processIndices, outerLoop,
    innerLoop, windowEnd, toSizeT, SIZE_MOD, mkWeights, addWeight, List.range,
    List.range.loop]

theorem keysOrdered_nil : KeysOrdered [] := by
  intro k hk
  simp [keys] at hk

/-! ## C2: canonical ordering -/

/-- C2. If every key `(lo, hi)` of the accumulator satisfies `lo ≤ hi` before a
call of `processChunk`, every key satisfies it after the call, for every chunk,
index, window size and weight table, and the accumulator then never holds both
`(x, y)` and `(y, x)` for `x ≠ y`; the call returns whenever the weight table has
at least `window_size` (as `size_t`) entries. -/
theorem processChunk_keys_ordered (chunk : List Str) (matrix : Matrix)
    (word_to_index : WordIndex) (window_size : Int) (weights : List ℚ)
    (hm : KeysOrdered matrix) :
    (∀ matrix', processChunk chunk matrix word_to_index window_size weights
        = some matrix' →
      KeysOrdered matrix' ∧
        ∀ x y : Int, x ≠ y → ¬ ((x, y) ∈ keys matrix' ∧ (y, x) ∈ keys matrix')) ∧
    (toSizeT window_size ≤ weights.length →
      ∃ matrix', processChunk chunk matrix word_to_index window_size weights
        = some matrix') := by
  refine ⟨?_, fun hw => processChunk_isSome word_to_index window_size weights hw chunk matrix⟩
  intro matrix' hrun
  have hord : KeysOrdered matrix' := by
    refine processChunk_inv word_to_index window_size weights (fun k => k.1 ≤ k.2)
      (fun _ _ _ _ => True) chunk (fun _ _ _ _ _ => trivial) ?_ matrix matrix' hm hrun
    intro line _ i j x idx2 _ _
    refine ⟨?_, trivial⟩
    split_ifs <;> simp only <;> omega
  refine ⟨hord, ?_⟩
  rintro x y hxy ⟨h1, h2⟩
  have a1 := hord _ h1
  have a2 := hord _ h2
  simp only at a1 a2
  omega

/-- C2, at the chunk `["the cat sat on it"]` started on the empty accumulator. -/
theorem processChunk_keys_ordered_witness :
    KeysOrdered ([] : Matrix) ∧ KeysOrdered [((0, 1), 1)] :=
  ⟨keysOrdered_nil,
    ((processChunk_keys_ordered ["the cat sat on it".toList] []
      [("cat".toList, 0), ("sat".toList, 1)] 1 (mkWeights 1) keysOrdered_nil).1 _
      processChunk_cat_sat).1⟩

/-! ## C3: batch-size independence -/

theorem processChunk_cons (line : Str) (rest : List Str) (matrix : Matrix)
    (word_to_index : WordIndex) (window_size : Int) (weights : List ℚ) :
    processChunk (line :: rest) matrix word_to_index window_size weights =
      (processLine word_to_index window_size weights matrix line).bind
        (fun m1 => processChunk rest m1 word_to_index window_size weights) := by
  rw [processChunk]
  cases processLine word_to_index window_size weights matrix line <;> rfl

theorem processChunk_append (c1 c2 : List Str) (word_to_index : WordIndex)
    (window_size : Int) (weights : List ℚ) :
    ∀ matrix : Matrix,
      processChunk (c1 ++ c2) matrix word_to_index window_size weights =
        (processChunk c1 matrix word_to_index window_size weights).bind
          (fun m1 => processChunk c2 m1 word_to_index window_size weights) := by
  induction c1 with
  | nil => intro matrix; rfl
  | cons line rest ih =>
    intro matrix
    rw [List.cons_append, processChunk_cons, processChunk_cons]
    cases h : processLine word_to_index window_size weights matrix line with
    | none => rfl
    | some m1 => exact ih m1

theorem readLoop_eq (CHUNK_SIZE : Nat) (word_to_index : WordIndex) (window_size : Int)
    (weights : List ℚ) :
    ∀ (lines chunk : List Str) (matrix : Matrix),
      readLoop CHUNK_SIZE word_to_index window_size weights lines chunk matrix =
        processChunk (chunk ++ lines) matrix word_to_index window_size weights := by
  intro lines
  induction lines with
  | nil =>
    intro chunk matrix
    rw [readLoop, List.append_nil]
    by_cases hc : chunk = []
    · subst hc; rfl
    · simp [hc]
  | cons line rest ih =>
    intro chunk matrix
    have happ : chunk ++ line :: rest = (chunk ++ [line]) ++ rest := by simp
    rw [readLoop, happ]
    by_cases hsize : (chunk ++ [line]).length ≥ CHUNK_SIZE
    · simp only [hsize, if_true]
      rw [processChunk_append (chunk ++ [line]) rest]
      cases processChunk (chunk ++ [line]) matrix word_to_index window_size weights with
      | none => rfl
      | some m1 => exact ih [] m1
    · simp only [hsize, if_false]
      exact ih _ _

/-- Calling `processChunk` on the chunks of a list one after another (`none` once a
call has failed). -/
theorem foldChunks_eq (word_to_index : WordIndex) (window_size : Int)
    (weights : List ℚ) (chunks : List (List Str)) :
    ∀ matrix : Matrix,
      chunks.foldl (fun acc chunk => acc.bind fun m =>
          processChunk chunk m word_to_index window_size weights) (some matrix) =
        processChunk chunks.flatten matrix word_to_index window_size weights := by
  induction chunks with
  | nil => intro matrix; rfl
  | cons c cs ih =>
    intro matrix
    rw [List.flatten_cons, processChunk_append, List.foldl_cons, Option.some_bind]
    cases h : processChunk c matrix word_to_index window_size weights with
    | some m1 => exact ih m1
    | none =>
      rw [Option.none_bind]
      clear ih h
      induction cs with
      | nil => rfl
      | cons c' cs' ih' => rw [List.foldl_cons, Option.none_bind]; exact ih'

/-- C3. Calling `processChunk` on two consecutive chunks one after the other gives
the accumulator of one call on their concatenation; hence every cut of the corpus
into consecutive chunks, and the loop of `main` for every `CHUNK_SIZE`, gives the
accumulator of a single call on the whole list of lines. -/
theorem processChunk_batch_independent (word_to_index : WordIndex) (window_size : Int)
    (weights : List ℚ) (matrix : Matrix) :
    (∀ c1 c2 : List Str,
      processChunk (c1 ++ c2) matrix word_to_index window_size weights =
        (processChunk c1 matrix word_to_index window_size weights).bind
          (fun m1 => processChunk c2 m1 word_to_index window_size weights)) ∧
    (∀ chunks : List (List Str),
      chunks.foldl (fun acc chunk => acc.bind fun m =>
          processChunk chunk m word_to_index window_size weights) (some matrix) =
        processChunk chunks.flatten matrix word_to_index window_size weights) ∧
    (∀ (CHUNK_SIZE : Nat) (lines : List Str),
      readLoop CHUNK_SIZE word_to_index window_size weights lines [] matrix =
        processChunk lines matrix word_to_index window_size weights) :=
  ⟨fun c1 c2 => processChunk_append c1 c2 word_to_index window_size weights matrix,
    fun chunks => foldChunks_eq word_to_index window_size weights chunks matrix,
    fun CHUNK_SIZE lines =>
      readLoop_eq CHUNK_SIZE word_to_index window_size weights lines [] matrix⟩

/-! ## C5: self-pairs -/

/-- C5, as stated, fails: the line `cat cat` stores the key `(0, 0)`. -/
theorem processChunk_self_pair_counterexample :
    ¬ ∀ (chunk : List Str) (word_to_index : WordIndex) (window_size : Int)
        (weights : List ℚ) (matrix' : Matrix),
        processChunk chunk [] word_to_index window_size weights = some matrix' →
        ∀ a : Int, (a, a) ∉ keys matrix' := by
  intro h
  exact h _ _ _ _ _ processChunk_cat_cat 0 (by simp [keys])

/-- C5, amended. Started on the empty accumulator, `processChunk` stores a key
`(a, a)` only if the id `a` occurs at least twice in the id sequence of one line
of the chunk. -/
theorem processChunk_self_pair_repeated (chunk : List Str) (word_to_index : WordIndex)
    (window_size : Int) (weights : List ℚ) (matrix' : Matrix) (a : Int)
    (hrun : processChunk chunk [] word_to_index window_size weights = some matrix')
    (ha : (a, a) ∈ keys matrix') :
    ∃ line ∈ chunk, 2 ≤ (lineIndices word_to_index line).count a := by
  have hinv := processChunk_inv word_to_index window_size weights
    (fun k => k.1 = k.2 → ∃ line ∈ chunk, 2 ≤ (lineIndices word_to_index line).count k.1)
    (fun ids _ j x => ∃ k, k < j ∧ ids[k]? = some x) chunk
    (fun line _ i x hx => ⟨i, Nat.lt_succ_self i, hx⟩)
    (by
      rintro line hline i j x idx2 hj ⟨k, hkj, hk⟩
      by_cases hgt : x > idx2
      · simp only [hgt, if_true]
        exact ⟨fun h => absurd h (by omega), j, Nat.lt_succ_self j, hj⟩
      · simp only [hgt, if_false]
        refine ⟨fun h => ⟨line, hline, ?_⟩, k, by omega, hk⟩
        rw [← h] at hj
        exact two_le_count_of_getElem? _ _ k j hkj hk hj)
    [] matrix' (by intro k hk; simp [keys] at hk) hrun
  exact hinv (a, a) ha rfl

/-- C5 amended, at the chunk `["cat cat"]`, which stores `(0, 0)`. -/
theorem processChunk_self_pair_repeated_witness :
    ∃ line ∈ ["cat cat".toList], 2 ≤ (lineIndices [("cat".toList, 0)] line).count 0 :=
  processChunk_self_pair_repeated ["cat cat".toList] [("cat".toList, 0)] 1 (mkWeights 1)
    [((0, 0), 1)] 0 processChunk_cat_cat (by simp [keys])

/-! ## C6: resolvable ids -/

theorem toSizeT_lt (a : Int) (V : Nat) (h0 : 0 ≤ a) (h1 : a < V) : toSizeT a < V := by
  unfold toSizeT SIZE_MOD
  norm_num
  omega

theorem writeRows_of_keysBelow (index_to_word : List Str) :
    ∀ matrix : Matrix, KeysBelow index_to_word.length matrix →
      ∃ rows, writeRows index_to_word matrix = some rows ∧ rows.length = matrix.length ∧
        ∀ r ∈ rows, r.1 ∈ index_to_word ∧ r.2.1 ∈ index_to_word := by
  intro matrix
  induction matrix with
  | nil => intro _; exact ⟨[], rfl, rfl, by simp⟩
  | cons kv rest ih =>
    obtain ⟨⟨a, b⟩, v⟩ := kv
    intro h
    have hab := h (a, b) (by simp [keys])
    obtain ⟨rows, hrows, hlen, hmem⟩ :=
      ih (fun k hk => h k (by simp only [keys, List.map_cons] at hk ⊢; exact List.mem_cons_of_mem _ hk))
    have ha := toSizeT_lt a _ hab.1.1 hab.1.2
    have hb := toSizeT_lt b _ hab.2.1 hab.2.2
    refine ⟨(index_to_word[toSizeT a], index_to_word[toSizeT b], v) :: rows, ?_, ?_, ?_⟩
    · rw [writeRows, List.getElem?_eq_getElem ha, List.getElem?_eq_getElem hb, hrows]
    · simp [hlen]
    · intro r hr
      rcases List.mem_cons.mp hr with h1 | h1
      · subst h1
        exact ⟨List.getElem_mem _, List.getElem_mem _⟩
      · exact hmem r h1

/-- C6. If every value of `word_to_index` lies in `[0, V)` with `V` the length of
`index_to_word`, and every key of the accumulator has both components in `[0, V)`
before `processChunk`, then every key has both components in `[0, V)` after it,
and the serializer reads `index_to_word` in bounds for every entry: it writes one
row per entry, each of whose two words is an element of `index_to_word`. -/
theorem processChunk_keys_resolvable (index_to_word : List Str) (chunk : List Str)
    (matrix : Matrix) (word_to_index : WordIndex) (window_size : Int)
    (weights : List ℚ) (matrix' : Matrix)
    (hvals : ∀ kv ∈ word_to_index, 0 ≤ kv.2 ∧ kv.2 < index_to_word.length)
    (hm : KeysBelow index_to_word.length matrix)
    (hrun : processChunk chunk matrix word_to_index window_size weights = some matrix') :
    KeysBelow index_to_word.length matrix' ∧
      ∃ rows, writeRows index_to_word matrix' = some rows ∧
        rows.length = matrix'.length ∧
        ∀ r ∈ rows, r.1 ∈ index_to_word ∧ r.2.1 ∈ index_to_word := by
  have hkeys : KeysBelow index_to_word.length matrix' := by
    refine processChunk_inv word_to_index window_size weights
      (fun k => (0 ≤ k.1 ∧ k.1 < index_to_word.length) ∧
        (0 ≤ k.2 ∧ k.2 < index_to_word.length))
      (fun _ _ _ x => 0 ≤ x ∧ x < index_to_word.length) chunk ?_ ?_ matrix matrix' hm hrun
    · intro line _ i x hx
      exact lineIndices_mem word_to_index
        (fun x => 0 ≤ x ∧ x < (index_to_word.length : Int)) hvals line x
        (List.getElem?_mem hx)
    · intro line _ i j x idx2 hj hx
      have h2 := lineIndices_mem word_to_index
        (fun x => 0 ≤ x ∧ x < (index_to_word.length : Int)) hvals line idx2
        (List.getElem?_mem hj)
      by_cases hgt : x > idx2
      · simp only [hgt, if_true]; exact ⟨⟨h2, hx⟩, h2⟩
      · simp only [hgt, if_false]; exact ⟨⟨hx, h2⟩, hx⟩
  exact ⟨hkeys, writeRows_of_keysBelow index_to_word matrix' hkeys⟩

/-! ## C4: tokenisation -/

theorem cleanLoop_eq (word : Str) :
    ∀ clean_word : Str,
      cleanLoop word clean_word = clean_word ++ (word.filter isalnum).map tolower := by
  induction word with
  | nil => intro clean_word; simp [cleanLoop]
  | cons c rest ih =>
    intro clean_word
    by_cases hc : isalnum c = true
    · simp [cleanLoop, hc, ih]
    · simp [cleanLoop, hc, ih]

theorem cleanWord_eq (word : Str) : cleanWord word = specNormalise word := by
  simp [cleanWord, specNormalise, cleanLoop_eq]

theorem extractWords_eq (line : Str) :
    ∀ cur : Str,
      extractWords line cur =
        ((line.splitOnP isspace).modifyHead (fun head => cur ++ head)).filter
          (fun token => token ≠ []) := by
  induction line with
  | nil =>
    intro cur
    by_cases hc : cur = []
    · simp [extractWords, List.splitOnP_nil, hc]
    · simp [extractWords, List.splitOnP_nil, hc]
  | cons c rest ih =>
    intro cur
    rw [List.splitOnP_cons]
    by_cases hs : isspace c = true
    · have hrest : extractWords rest [] =
          (rest.splitOnP isspace).filter (fun token => token ≠ []) := by
        rw [ih []]
        obtain ⟨h, t, heq⟩ := List.exists_cons_of_ne_nil (List.splitOnP_ne_nil isspace rest)
        simp [heq]
      by_cases hc : cur = []
      · simp [extractWords, hs, hc, hrest]
      · simp [extractWords, hs, hc, hrest]
    · simp only [extractWords, hs, if_false, Bool.false_eq_true]
      rw [ih (cur ++ [c]), List.modifyHead_modifyHead]
      congr 2
      funext head
      simp

theorem extractWords_eq_specTokens (line : Str) : extractWords line [] = specTokens line := by
  rw [extractWords_eq, specTokens]
  obtain ⟨h, t, heq⟩ := List.exists_cons_of_ne_nil (List.splitOnP_ne_nil isspace line)
  simp [heq]

theorem indexLoop_eq (word_to_index : WordIndex) (words : List Str) :
    ∀ indices : List Int,
      indexLoop word_to_index words indices =
        indices ++ words.filterMap fun token =>
          if (specNormalise token).length > 2 then
            findWord word_to_index (specNormalise token)
          else none := by
  induction words with
  | nil => intro indices; simp [indexLoop]
  | cons word rest ih =>
    intro indices
    rw [indexLoop, cleanWord_eq]
    by_cases hlen : (specNormalise word).length ≤ 2
    · have hn : ¬ (specNormalise word).length > 2 := by omega
      simp only [hlen, decide_True, ih, List.filterMap_cons, hn, if_false]
    · have hn : (specNormalise word).length > 2 := by omega
      cases hf : findWord word_to_index (specNormalise word) with
      | none => simp only [hlen, decide_False, ih, List.filterMap_cons, hn, if_true, hf]
      | some id =>
        simp only [hlen, decide_False, ih, List.filterMap_cons, hn, if_true, hf,
          List.append_assoc, List.singleton_append]

theorem processIndices_pair (a b : Int) (w : Nat) (h1 : 1 ≤ w) (h2 : w < 2 ^ 31) :
    processIndices [a, b] [] (w : Int) (mkWeights w) = some [(canonical a b, 1)] := by
  obtain ⟨n, rfl⟩ : ∃ n, w = n + 1 := ⟨w - 1, by omega⟩
  have hw0 : (mkWeights (n + 1))[0]? = some 1 := by
    simp [mkWeights, List.range_succ_eq_map]
  have he0 : windowEnd 0 ((n + 1 : Nat) : Int) 2 = 2 := by
    unfold windowEnd toSizeT SIZE_MOD
    norm_num at h2 ⊢
    omega
  have he1 : windowEnd 1 ((n + 1 : Nat) : Int) 2 = 2 := by
    unfold windowEnd toSizeT SIZE_MOD
    norm_num at h2 ⊢
    omega
  simp only [processIndices, outerLoop, List.length_cons, List.length_nil, he0, he1,
    innerLoop, List.getElem?_cons_zero, List.getElem?_cons_succ, Nat.reduceAdd,
    Nat.reduceSub, hw0, addWeight, canonical, zero_add]
  by_cases hab : a > b
  · have h3 : min a b = b := min_eq_right (by omega)
    have h4 : max a b = a := max_eq_left (by omega)
    simp [hab, h3, h4]
  · have h3 : min a b = a := min_eq_left (by omega)
    have h4 : max a b = b := max_eq_right (by omega)
    simp [hab, h3, h4]

/-- C4. The vector `indices` built by `processChunk` for a line is the list, in
left-to-right order, of the ids of the whitespace-separated raw tokens whose
normalisation (alphanumeric characters only, lower-cased) has length `> 2` and
is a key of `word_to_index`.  For the line `the cat sat on it` and the vocabulary
`cat ↦ a`, `sat ↦ b` it is `[a, b]`, and for every window size `≥ 1` the call makes
the single update `canonical(a, b) += 1`. -/
theorem lineIndices_tokenisation (word_to_index : WordIndex) (line : Str) (a b : Int) :
    lineIndices word_to_index line = specLineIds word_to_index line ∧
    lineIndices [("cat".toList, a), ("sat".toList, b)] "the cat sat on it".toList
      = [a, b] ∧
    ∀ w : Nat, 1 ≤ w → w < 2 ^ 31 →
      processChunk ["the cat sat on it".toList] []
        [("cat".toList, a), ("sat".toList, b)] (w : Int) (mkWeights w)
        = some [(canonical a b, 1)] := by
  have hline : lineIndices [("cat".toList, a), ("sat".toList, b)]
      "the cat sat on it".toList = [a, b] := rfl
  refine ⟨?_, hline, ?_⟩
  · rw [lineIndices, indexLoop_eq, extractWords_eq_specTokens, specLineIds]
    simp
  · intro w h1 h2
    rw [processChunk_cons, processLine, hline, processIndices_pair a b w h1 h2]
    rfl

/-- C4, at window size `1` with `cat ↦ 0`, `sat ↦ 1`. -/
theorem lineIndices_tokenisation_witness :
    processChunk ["the cat sat on it".toList] []
      [("cat".toList, 0), ("sat".toList, 1)] ((1 : Nat) : Int) (mkWeights 1)
      = some [(canonical 0 1, 1)] :=
  (lineIndices_tokenisation [] [] 0 1).2.2 1 (by decide) (by decide)

/-- C6, at the chunk `["the cat sat on it"]` with the index `cat ↦ 0`, `sat ↦ 1`. -/
theorem processChunk_keys_resolvable_witness :
    KeysBelow 2 [((0, 1), 1)] ∧
      ∃ rows, writeRows ["cat".toList, "sat".toList] [((0, 1), 1)] = some rows ∧
        rows.length = 1 ∧
        ∀ r ∈ rows, r.1 ∈ ["cat".toList, "sat".toList] ∧
          r.2.1 ∈ ["cat".toList, "sat".toList] :=
  processChunk_keys_resolvable ["cat".toList, "sat".toList] ["the cat sat on it".toList]
    [] [("cat".toList, 0), ("sat".toList, 1)] 1 (mkWeights 1) [((0, 1), 1)]
    (by decide) (by intro k hk; simp [keys] at hk) processChunk_cat_sat

/-! ### The vocabulary index built by `main` -/

theorem assign_keys (word_to_index : WordIndex) (key : Str) (value : Int) :
    (assign word_to_index key value).map Prod.fst =
      if key ∈ word_to_index.map Prod.fst then word_to_index.map Prod.fst
      else word_to_index.map Prod.fst ++ [key] := by
  induction word_to_index with
  | nil => simp [assign]
  | cons kv rest ih =>
    obtain ⟨k0, v0⟩ := kv
    by_cases hk : k0 = key
    · simp [assign, hk]
    · have hk' : ¬ key = k0 := fun h => hk h.symm
      by_cases hmem : key ∈ rest.map Prod.fst
      · simp only [assign, hk, if_false, List.map_cons, ih, hmem, if_true, List.mem_cons,
          or_true]
      · simp only [assign, hk, if_false, List.map_cons, ih, hmem, List.mem_cons, hk',
          or_self, List.cons_append]

theorem findWord_assign (word_to_index : WordIndex) (key : Str) (value : Int) (w : Str) :
    findWord (assign word_to_index key value) w =
      if key = w then some value else findWord word_to_index w := by
  induction word_to_index with
  | nil => simp [assign, findWord]
  | cons kv rest ih =>
    obtain ⟨k0, v0⟩ := kv
    by_cases hk : k0 = key
    · subst hk
      by_cases hw : k0 = w
      · simp [assign, findWord, hw]
      · simp [assign, findWord, hw]
    · by_cases hw : k0 = w
      · have hkw : ¬ key = w := fun h => hk (hw.trans h.symm)
        subst hw
        simp [assign, findWord, hk, hkw]
      · simp [assign, findWord, hk, hw, ih]

theorem buildLoop_snd (rows : List (Str × Int)) :
    ∀ (i : Nat) (word_to_index : WordIndex) (index_to_word : List Str),
      (buildLoop rows i word_to_index index_to_word).2 =
        index_to_word ++ rows.map Prod.fst := by
  induction rows with
  | nil => intro i wti itw; simp [buildLoop]
  | cons row rest ih => intro i wti itw; simp [buildLoop, ih]

theorem buildLoop_keys (rows : List (Str × Int)) :
    ∀ (i : Nat) (word_to_index : WordIndex) (index_to_word : List Str),
      (word_to_index.map Prod.fst).Nodup →
      ((buildLoop rows i word_to_index index_to_word).1.map Prod.fst).Nodup ∧
      ((buildLoop rows i word_to_index index_to_word).1.map Prod.fst).toFinset =
        (word_to_index.map Prod.fst).toFinset ∪ (rows.map Prod.fst).toFinset := by
  induction rows with
  | nil => intro i wti itw h; simp [buildLoop, h]
  | cons row rest ih =>
    intro i wti itw h
    have hnd : ((assign wti row.1 (toInt i)).map Prod.fst).Nodup := by
      rw [assign_keys]
      by_cases hmem : row.1 ∈ wti.map Prod.fst
      · simpa [hmem] using h
      · simp only [hmem, if_false]
        exact List.Nodup.append h (List.nodup_singleton _)
          (by simpa [List.disjoint_singleton] using hmem)
    have hfs : ((assign wti row.1 (toInt i)).map Prod.fst).toFinset =
        insert row.1 (wti.map Prod.fst).toFinset := by
      rw [assign_keys]
      by_cases hmem : row.1 ∈ wti.map Prod.fst
      · simp only [hmem, if_true]
        exact (Finset.insert_eq_of_mem (List.mem_toFinset.mpr hmem)).symm
      · simp only [hmem, if_false]
        ext x
        simp [or_comm]
    obtain ⟨h1, h2⟩ := ih (i + 1) (assign wti row.1 (toInt i)) (itw ++ [row.1]) hnd
    refine ⟨by simpa [buildLoop] using h1, ?_⟩
    rw [buildLoop, h2, hfs]
    ext x
    simp [or_assoc]

theorem buildLoop_find_absent (w : Str) (rows : List (Str × Int)) :
    ∀ (i : Nat) (word_to_index : WordIndex) (index_to_word : List Str),
      (∀ r ∈ rows, r.1 ≠ w) →
      findWord (buildLoop rows i word_to_index index_to_word).1 w =
        findWord word_to_index w := by
  induction rows with
  | nil => intro i wti itw _; rfl
  | cons row rest ih =>
    intro i wti itw h
    rw [buildLoop, ih _ _ _ (fun r hr => h r (List.mem_cons_of_mem _ hr)), findWord_assign]
    simp [h row (List.mem_cons_self _ _)]

theorem buildLoop_find_last (w : Str) (rows : List (Str × Int)) :
    ∀ (n i : Nat) (word_to_index : WordIndex) (index_to_word : List Str) (r : Str × Int),
      rows[n]? = some r → r.1 = w →
      (∀ m r', n < m → rows[m]? = some r' → r'.1 ≠ w) →
      findWord (buildLoop rows i word_to_index index_to_word).1 w = some (toInt (i + n)) := by
  induction rows with
  | nil => intro n i wti itw r h; simp at h
  | cons row rest ih =>
    intro n i wti itw r hn hw hlast
    cases n with
    | zero =>
      simp only [List.getElem?_cons_zero, Option.some.injEq] at hn
      subst hn
      have hrest : ∀ r' ∈ rest, r'.1 ≠ w := by
        intro r' hr'
        obtain ⟨m, hm⟩ := List.mem_iff_getElem?.mp hr'
        exact hlast (m + 1) r' (by omega) (by simpa using hm)
      rw [buildLoop, buildLoop_find_absent w rest _ _ _ hrest, findWord_assign]
      simp [hw]
    | succ n' =>
      rw [List.getElem?_cons_succ] at hn
      rw [buildLoop, ih n' (i + 1) _ _ r hn hw
        (fun m r' hm hr' => hlast (m + 1) r' (by omega) (by simpa using hr'))]
      congr 2
      omega

theorem exists_last_occurrence (w : Str) (rows : List (Str × Int)) :
    w ∈ rows.map Prod.fst →
      ∃ (n : Nat) (r : Str × Int), rows[n]? = some r ∧ r.1 = w ∧
        ∀ (m : Nat) (r' : Str × Int), n < m → rows[m]? = some r' → r'.1 ≠ w := by
  induction rows with
  | nil => intro h; simp at h
  | cons row rest ih =>
    intro h
    by_cases hrest : w ∈ rest.map Prod.fst
    · obtain ⟨n, r, hn, hr, hlast⟩ := ih hrest
      refine ⟨n + 1, r, by rw [List.getElem?_cons_succ]; exact hn, hr, ?_⟩
      intro m r' hm hr'
      obtain ⟨m', rfl⟩ : ∃ m', m = m' + 1 := ⟨m - 1, by omega⟩
      rw [List.getElem?_cons_succ] at hr'
      exact hlast m' r' (by omega) hr'
    · have hrow : row.1 = w := by
        simp only [List.map_cons, List.mem_cons] at h
        rcases h with h | h
        · exact h.symm
        · exact absurd h hrest
      refine ⟨0, row, List.getElem?_cons_zero, hrow, ?_⟩
      intro m r' hm hr'
      obtain ⟨m', rfl⟩ : ∃ m', m = m' + 1 := ⟨m - 1, by omega⟩
      intro hw
      apply hrest
      rw [List.getElem?_cons_succ] at hr'
      exact List.mem_map.mpr ⟨r', List.getElem?_mem hr', hw⟩

theorem toInt_injective (i j : Nat) (hi : i < 2 ^ 32) (hj : j < 2 ^ 32)
    (h : toInt i = toInt j) : i = j := by
  unfold toInt at h
  rw [Nat.mod_eq_of_lt hi, Nat.mod_eq_of_lt hj] at h
  split_ifs at h <;> omega

theorem sortResult_length (rows sorted : List (Str × Int)) (h : SortResult rows sorted) :
    sorted.length = rows.length := h.1.length_eq

theorem sortResult_ge (rows sorted : List (Str × Int)) (h : SortResult rows sorted) :
    sorted.Pairwise (fun a b => a.2 ≥ b.2) := by
  refine h.2.imp ?_
  intro a b hab
  simp only [comp, decide_eq_false_iff_not] at hab
  omega

theorem pairwise_getElem?_ge (l : List (Str × Int))
    (hp : l.Pairwise (fun a b => a.2 ≥ b.2)) (i j : Nat) (ri rj : Str × Int)
    (hij : i < j) (hi : l[i]? = some ri) (hj : l[j]? = some rj) : ri.2 ≥ rj.2 := by
  obtain ⟨hi', rfl⟩ := List.getElem?_eq_some_iff.mp hi
  obtain ⟨hj', rfl⟩ := List.getElem?_eq_some_iff.mp hj
  exact (List.pairwise_iff_getElem.mp hp) i j hi' hj' hij

theorem buildIndex_snd (word_counts : List (Str × Int)) (top_words : Nat) :
    (buildIndex word_counts top_words).2 =
      (word_counts.take (vocabSize word_counts top_words)).map Prod.fst := by
  rw [buildIndex, buildLoop_snd, List.nil_append]

theorem buildIndex_fst_length (word_counts : List (Str × Int)) (top_words : Nat) :
    (buildIndex word_counts top_words).1.length =
      ((word_counts.take (vocabSize word_counts top_words)).map Prod.fst).dedup.length := by
  obtain ⟨hnd, hfs⟩ := buildLoop_keys
    (word_counts.take (vocabSize word_counts top_words)) 0 [] [] (by simp)
  have h1 : ((buildIndex word_counts top_words).1.map Prod.fst).toFinset.card =
      ((buildIndex word_counts top_words).1.map Prod.fst).length :=
    List.toFinset_card_of_nodup hnd
  have h2 : ((buildIndex word_counts top_words).1.map Prod.fst).toFinset =
      ((word_counts.take (vocabSize word_counts top_words)).map Prod.fst).toFinset := by
    have := hfs
    simp only [List.map_nil, List.toFinset_nil, Finset.empty_union] at this
    exact this
  rw [← List.card_toFinset, ← h2, h1, List.length_map]

/-- Rows used in the examples of the vocabulary stage, in file order. -/
theorem sortResult_example :
    SortResult [("bbb".toList, 1), ("aaa".toList, 3), ("ccc".toList, 2)]
      [("aaa".toList, 3), ("ccc".toList, 2), ("bbb".toList, 1)] :=
  ⟨by decide, by decide⟩

/-! ## C7: vocabulary capping -/

/-- C7, as stated, fails: with the rows `aaa,3`, `aaa,2`, `bbb,1` (already in
descending order of count) and `top_words = 2` the index has one entry, while
there are two distinct words. -/
theorem buildIndex_size_counterexample :
    ¬ ∀ (rows sorted : List (Str × Int)) (top_words : Nat), SortResult rows sorted →
        (buildIndex sorted top_words).1.length =
            min top_words (rows.map Prod.fst).dedup.length ∧
          (buildIndex sorted top_words).2.length = min top_words rows.length := by
  intro h
  have h1 := (h [("aaa".toList, 3), ("aaa".toList, 2), ("bbb".toList, 1)]
    [("aaa".toList, 3), ("aaa".toList, 2), ("bbb".toList, 1)] 2
    ⟨List.Perm.refl _, by decide⟩).1
  revert h1
  decide

/-- C7, amended. For every list of admitted rows, every result of the sort and
every cap `top_words`, `word_to_index` has as many entries as there are distinct
words among the first `min(top_words, number of rows)` ranked rows, which is
`min(top_words, number of distinct words)` when the rows have pairwise different
words; `vocab_size` and the length of `index_to_word` are
`min(top_words, number of rows)`. -/
theorem buildIndex_size (rows sorted : List (Str × Int)) (top_words : Nat)
    (hsort : SortResult rows sorted) :
    (buildIndex sorted top_words).1.length =
        ((sorted.take (min top_words rows.length)).map Prod.fst).dedup.length ∧
      vocabSize sorted top_words = min top_words rows.length ∧
      (buildIndex sorted top_words).2.length = min top_words rows.length ∧
      ((rows.map Prod.fst).Nodup →
        (buildIndex sorted top_words).1.length =
          min top_words (rows.map Prod.fst).dedup.length) := by
  have hV : vocabSize sorted top_words = min top_words rows.length := by
    rw [vocabSize, sortResult_length rows sorted hsort, min_comm]
  have hlen : (buildIndex sorted top_words).1.length =
      ((sorted.take (min top_words rows.length)).map Prod.fst).dedup.length := by
    rw [buildIndex_fst_length, hV]
  refine ⟨hlen, hV, ?_, ?_⟩
  · rw [buildIndex_snd, List.length_map, List.length_take, hV,
      sortResult_length rows sorted hsort]
    omega
  · intro hnd
    have hnd' : (sorted.map Prod.fst).Nodup := ((hsort.1.map Prod.fst).nodup_iff).mpr hnd
    have htake : ((sorted.take (min top_words rows.length)).map Prod.fst).Nodup :=
      List.Nodup.sublist ((List.take_sublist _ _).map Prod.fst) hnd'
    rw [hlen, htake.dedup, hnd.dedup, List.length_map, List.length_map, List.length_take,
      sortResult_length rows sorted hsort]
    omega

/-- C7 amended, at the rows `bbb,1`, `aaa,3`, `ccc,2` with `top_words = 2`. -/
theorem buildIndex_size_witness :
    (buildIndex [("aaa".toList, 3), ("ccc".toList, 2), ("bbb".toList, 1)] 2).2.length
      = min 2 [("bbb".toList, 1), ("aaa".toList, 3), ("ccc".toList, 2)].length :=
  (buildIndex_size _ _ 2 sortResult_example).2.2.1

/-! ## C8: ranked ids -/

/-- C8. For every list of admitted rows, every result of the sort and every cap,
id `i` is given to the row at rank `i` (`index_to_word[i]` is its word); for ids
`i < j < vocab_size` the count of the row of id `i` is `≥` that of the row of id
`j`; id `0` goes to a row whose count is maximal among all rows; and every row
left out by the cap has a count `≤` that of every row given an id. -/
theorem buildIndex_ranked (rows sorted : List (Str × Int)) (top_words : Nat)
    (hsort : SortResult rows sorted) :
    (∀ i, i < vocabSize sorted top_words →
      (buildIndex sorted top_words).2[i]? = (sorted[i]?).map Prod.fst) ∧
    (∀ (i j : Nat) (ri rj : Str × Int), i < j → j < vocabSize sorted top_words →
      sorted[i]? = some ri → sorted[j]? = some rj → ri.2 ≥ rj.2) ∧
    (∀ r0 : Str × Int, 0 < vocabSize sorted top_words → sorted[0]? = some r0 →
      ∀ r ∈ rows, r.2 ≤ r0.2) ∧
    (∀ r ∈ sorted.drop (vocabSize sorted top_words),
      ∀ r' ∈ sorted.take (vocabSize sorted top_words), r.2 ≤ r'.2) := by
  have hge := sortResult_ge rows sorted hsort
  refine ⟨?_, ?_, ?_, ?_⟩
  · intro i hi
    rw [buildIndex_snd, List.getElem?_map, List.getElem?_take_of_lt hi]
  · intro i j ri rj hij _ hi hj
    exact pairwise_getElem?_ge sorted hge i j ri rj hij hi hj
  · intro r0 _ h0 r hr
    obtain ⟨n, hn⟩ := List.mem_iff_getElem?.mp (hsort.1.mem_iff.mpr hr)
    cases n with
    | zero =>
      rw [h0] at hn
      rw [Option.some.inj hn]
    | succ n' => exact pairwise_getElem?_ge sorted hge 0 (n' + 1) r0 r (by omega) h0 hn
  · intro r hr r' hr'
    have happ := List.take_append_drop (vocabSize sorted top_words) sorted
    rw [← happ] at hge
    exact (List.pairwise_append.mp hge).2.2 r' hr' r hr

/-- C8, at the rows `bbb,1`, `aaa,3`, `ccc,2` with `top_words = 2`: id `0` goes to
the word of the first ranked row, whose count `3` is maximal. -/
theorem buildIndex_ranked_witness :
    SortResult [("bbb".toList, 1), ("aaa".toList, 3), ("ccc".toList, 2)]
        [("aaa".toList, 3), ("ccc".toList, 2), ("bbb".toList, 1)] ∧
      (buildIndex [("aaa".toList, 3), ("ccc".toList, 2), ("bbb".toList, 1)] 2).2[0]? =
        ([("aaa".toList, (3 : Int)), ("ccc".toList, 2), ("bbb".toList, 1)][0]?).map
          Prod.fst :=
  ⟨sortResult_example, (buildIndex_ranked _ _ 2 sortResult_example).1 0 (by decide)⟩

/-! ## C9: ties in the re-sort -/

theorem sortResult_unique (rows s1 s2 : List (Str × Int)) (h1 : SortResult rows s1)
    (h2 : SortResult rows s2) (hd : (rows.map Prod.snd).Nodup) : s1 = s2 := by
  have strict : ∀ s, SortResult rows s → s.Pairwise (fun a b : Str × Int => a.2 > b.2) := by
    intro s hs
    have hnd : (s.map Prod.snd).Nodup := ((hs.1.map Prod.snd).nodup_iff).mpr hd
    have hne : s.Pairwise (fun a b : Str × Int => a.2 ≠ b.2) := by
      rw [List.Nodup, List.pairwise_map] at hnd
      exact hnd
    refine ((sortResult_ge rows s hs).and hne).imp ?_
    intro a b hab
    have := hab.1
    have := hab.2
    omega
  haveI : IsAntisymm (Str × Int) (fun a b => a.2 > b.2) :=
    ⟨fun a b hab hba => absurd hab (by omega)⟩
  exact List.eq_of_perm_of_sorted (h1.1.trans h2.1.symm) (strict s1 h1) (strict s2 h2)

/-- The seventeen rows `aaa,1`, `bbb,1`, ..., `qqq,1` of equal count, in file order,
and the order in which `std::sort` of GNU libstdc++ leaves them: a range of more
than 16 elements is partitioned first; the median-of-three step exchanges the
rows at positions 0 and 8, and the unguarded partition, for which no row is
ordered before the pivot, exchanges positions 1 and 16, 2 and 15, ..., 8 and 9;
the final insertion sort moves nothing.  The order is a result the guarantee of
`std::sort` allows. -/
theorem sortResult_seventeen_ties :
    SortResult
    [("aaa".toList, 1), ("bbb".toList, 1), ("ccc".toList, 1), ("ddd".toList, 1),
      ("eee".toList, 1), ("fff".toList, 1), ("ggg".toList, 1), ("hhh".toList, 1),
      ("iii".toList, 1), ("jjj".toList, 1), ("kkk".toList, 1), ("lll".toList, 1),
      ("mmm".toList, 1), ("nnn".toList, 1), ("ooo".toList, 1), ("ppp".toList, 1),
      ("qqq".toList, 1)]
    [("iii".toList, 1), ("qqq".toList, 1), ("ppp".toList, 1), ("ooo".toList, 1),
      ("nnn".toList, 1), ("mmm".toList, 1), ("lll".toList, 1), ("kkk".toList, 1),
      ("jjj".toList, 1), ("aaa".toList, 1), ("hhh".toList, 1), ("ggg".toList, 1),
      ("fff".toList, 1), ("eee".toList, 1), ("ddd".toList, 1), ("ccc".toList, 1),
      ("bbb".toList, 1)] :=
  ⟨by decide, by decide⟩

/-- C9, as stated, fails: for the seventeen rows `aaa,1`, ..., `qqq,1` of equal count
the sort leaves `iii` first and `aaa` at rank 9, so the row `aaa`, which precedes
the row `iii` in the file, is ranked (and given an id) after it. -/
theorem sort_ties_counterexample :
    ¬ ∀ (rows sorted : List (Str × Int)) (r1 r2 : Str × Int), SortResult rows sorted →
        [r1, r2].Sublist rows → r1.2 = r2.2 → [r1, r2].Sublist sorted := by
  intro h
  have h1 := h _ _ ("aaa".toList, 1) ("iii".toList, 1) sortResult_seventeen_ties
    (by decide) rfl
  revert h1
  decide

/-- C9, amended. In every result of the re-sort a row with a strictly larger
`word_count` is ranked before every row with a smaller one; no order is promised
among rows of equal `word_count`; when the admitted rows have pairwise different
`word_count`s the ranking, and with it the index, is determined by the rows. -/
theorem sort_ranking (rows s1 s2 : List (Str × Int)) (top_words : Nat)
    (h1 : SortResult rows s1) (h2 : SortResult rows s2) :
    (∀ (i j : Nat) (r1 r2 : Str × Int), s1[i]? = some r1 → s1[j]? = some r2 →
      r1.2 > r2.2 → i < j) ∧
    ((rows.map Prod.snd).Nodup →
      s1 = s2 ∧ buildIndex s1 top_words = buildIndex s2 top_words) := by
  constructor
  · intro i j r1 r2 hi hj hgt
    by_contra hij
    rcases Nat.lt_or_ge j i with hlt | hge
    · have := pairwise_getElem?_ge s1 (sortResult_ge rows s1 h1) j i r2 r1 hlt hj hi
      omega
    · have hij' : i = j := by omega
      subst hij'
      rw [hi] at hj
      rw [Option.some.inj hj] at hgt
      omega
  · intro hd
    have := sortResult_unique rows s1 s2 h1 h2 hd
    exact ⟨this, by rw [this]⟩

/-- C9 amended, at the rows `bbb,1`, `aaa,3`, `ccc,2`, whose counts differ: two
results of the sort coincide. -/
theorem sort_ranking_witness :
    ([("bbb".toList, (1 : Int)), ("aaa".toList, 3), ("ccc".toList, 2)].map Prod.snd).Nodup ∧
      ([("aaa".toList, (3 : Int)), ("ccc".toList, 2), ("bbb".toList, 1)] =
          [("aaa".toList, (3 : Int)), ("ccc".toList, 2), ("bbb".toList, 1)] ∧
        buildIndex [("aaa".toList, 3), ("ccc".toList, 2), ("bbb".toList, 1)] 2 =
          buildIndex [("aaa".toList, 3), ("ccc".toList, 2), ("bbb".toList, 1)] 2) :=
  ⟨by decide, (sort_ranking _ _ _ 2 sortResult_example sortResult_example).2 (by decide)⟩

/-! ## C10: duplicate vocabulary words -/

/-- C10, as stated, fails: with the ranked rows `aaa,3`, `aaa,2` and
`top_words = 2` the lookup of `aaa` returns id `1`, the id of the second
occurrence, although the first occurrence has id `0`. -/
theorem buildIndex_first_wins_counterexample :
    ¬ ∀ (rows sorted : List (Str × Int)) (top_words i : Nat) (w : Str) (c : Int),
        SortResult rows sorted → i < vocabSize sorted top_words →
        sorted[i]? = some (w, c) →
        (∀ (j : Nat) (r : Str × Int), j < i → sorted[j]? = some r → r.1 ≠ w) →
        findWord (buildIndex sorted top_words).1 w = some (toInt i) := by
  intro h
  have h1 := h [("aaa".toList, 3), ("aaa".toList, 2)] [("aaa".toList, 3), ("aaa".toList, 2)]
    2 0 "aaa".toList 3 ⟨List.Perm.refl _, by decide⟩ (by decide) rfl
    (by intro j r hj; omega)
  revert h1
  decide

/-- C10, amended. For every ranked vector and every cap, the lookup of a word
that occurs among the first `vocab_size` rows returns the id of its last
(lowest-ranked) occurrence among them; and when `vocab_size ≤ 2^31`, two words
with the same id are equal (word → id is injective). -/
theorem buildIndex_last_wins (word_counts : List (Str × Int)) (top_words : Nat) :
    (∀ (i : Nat) (w : Str) (c : Int), i < vocabSize word_counts top_words →
      word_counts[i]? = some (w, c) →
      (∀ (j : Nat) (r : Str × Int), i < j → j < vocabSize word_counts top_words →
        word_counts[j]? = some r → r.1 ≠ w) →
      findWord (buildIndex word_counts top_words).1 w = some (toInt i)) ∧
    (vocabSize word_counts top_words ≤ 2 ^ 31 →
      ∀ (w1 w2 : Str) (id : Int),
        findWord (buildIndex word_counts top_words).1 w1 = some id →
        findWord (buildIndex word_counts top_words).1 w2 = some id → w1 = w2) := by
  have hlast : ∀ (n : Nat) (r : Str × Int) (w : Str),
      (word_counts.take (vocabSize word_counts top_words))[n]? = some r → r.1 = w →
      (∀ (m : Nat) (r' : Str × Int), n < m →
        (word_counts.take (vocabSize word_counts top_words))[m]? = some r' → r'.1 ≠ w) →
      findWord (buildIndex word_counts top_words).1 w = some (toInt n) := by
    intro n r w hn hr hl
    have := buildLoop_find_last w (word_counts.take (vocabSize word_counts top_words))
      n 0 [] [] r hn hr hl
    rwa [Nat.zero_add] at this
  have hlen : (word_counts.take (vocabSize word_counts top_words)).length ≤
      vocabSize word_counts top_words := by
    rw [List.length_take]; exact min_le_left _ _
  constructor
  · intro i w c hi hw hl
    refine hlast i (w, c) w (by rw [List.getElem?_take_of_lt hi]; exact hw) rfl ?_
    intro m r' hm hr'
    have hmV : m < vocabSize word_counts top_words := by
      have := (List.getElem?_eq_some_iff.mp hr').1
      omega
    rw [List.getElem?_take_of_lt hmV] at hr'
    exact hl m r' hm hmV hr'
  · intro hV w1 w2 id h1 h2
    have key : ∀ w : Str, findWord (buildIndex word_counts top_words).1 w = some id →
        ∃ (n : Nat) (r : Str × Int),
          (word_counts.take (vocabSize word_counts top_words))[n]? = some r ∧ r.1 = w ∧
            id = toInt n := by
      intro w hw
      have hmem : w ∈ (word_counts.take (vocabSize word_counts top_words)).map Prod.fst := by
        by_contra hnot
        have habs := buildLoop_find_absent w
          (word_counts.take (vocabSize word_counts top_words)) 0 [] []
          (fun r hr hrw => hnot (List.mem_map.mpr ⟨r, hr, hrw⟩))
        rw [buildIndex, habs] at hw
        simp [findWord] at hw
      obtain ⟨n, r, hn, hr, hl⟩ := exists_last_occurrence w _ hmem
      refine ⟨n, r, hn, hr, ?_⟩
      have := hlast n r w hn hr hl
      rw [this] at hw
      exact (Option.some.inj hw).symm
    obtain ⟨n1, r1, hn1, hr1, hid1⟩ := key w1 h1
    obtain ⟨n2, r2, hn2, hr2, hid2⟩ := key w2 h2
    have hb1 := (List.getElem?_eq_some_iff.mp hn1).1
    have hb2 := (List.getElem?_eq_some_iff.mp hn2).1
    have hpow : (2 : Nat) ^ 31 < 2 ^ 32 := by norm_num
    have hn : n1 = n2 :=
      toInt_injective n1 n2 (by omega) (by omega) (hid1.symm.trans hid2)
    subst hn
    rw [hn1] at hn2
    rw [← hr1, ← hr2, Option.some.inj hn2]

/-- C10 amended, at the ranked rows `aaa,3`, `aaa,2`, `bbb,1` with `top_words = 2`:
the lookup of `aaa` returns id `1`. -/
theorem buildIndex_last_wins_witness :
    findWord (buildIndex [("aaa".toList, 3), ("aaa".toList, 2), ("bbb".toList, 1)] 2).1
      "aaa".toList = some (toInt 1) :=
  (buildIndex_last_wins [("aaa".toList, 3), ("aaa".toList, 2), ("bbb".toList, 1)] 2).1
    1 "aaa".toList 2 (by decide) rfl
    (by
      intro j r h1 h2
      have : vocabSize [("aaa".toList, (3 : Int)), ("aaa".toList, 2), ("bbb".toList, 1)] 2
          = 2 := by decide
      omega)

/-! ## C1: window correctness -/

/-- The index of an eight-word vocabulary, ids `0` to `7` in ranked order. -/
theorem lineIndices_fff_ccc_hhh :
    lineIndices [("aaa".toList, 0), ("bbb".toList, 1), ("ccc".toList, 2),
        ("ddd".toList, 3), ("eee".toList, 4), ("fff".toList, 5), ("ggg".toList, 6),
        ("hhh".toList, 7)] "fff ccc hhh".toList = [5, 2, 7] := by decide

/-- C1, evaluated on the line `fff ccc hhh`, whose id sequence is `[5, 2, 7]`, with
window size `2` and weights `[1, 1/2]`: the code stores `(2,5) ↦ 1` and
`(2,7) ↦ 3/2` and no key `(5,7)`, whereas the sum over the index pairs asks for
`(2,5) ↦ 1`, `(5,7) ↦ 1/2` and `(2,7) ↦ 1`. -/
theorem processChunk_window_divergence :
    processChunk ["fff ccc hhh".toList] []
        [("aaa".toList, 0), ("bbb".toList, 1), ("ccc".toList, 2), ("ddd".toList, 3),
          ("eee".toList, 4), ("fff".toList, 5), ("ggg".toList, 6), ("hhh".toList, 7)]
        2 (mkWeights 2)
      = some [((2, 5), 1), ((2, 7), 3 / 2)] ∧
    weightOf [((2, 5), 1), ((2, 7), 3 / 2)] (5, 7) = none ∧
    specWeight [5, 2, 7] 2 (2, 5) = 1 ∧
    specWeight [5, 2, 7] 2 (5, 7) = 1 / 2 ∧
    specWeight [5, 2, 7] 2 (2, 7) = 1 := by
  refine ⟨?_, ?_, ?_, ?_, ?_⟩
  · simp only [processChunk, processLine, lineIndices_fff_ccc_hhh]
    simp [processIndices, outerLoop, innerLoop, windowEnd, toSizeT, SIZE_MOD, mkWeights,
      addWeight, List.range, List.range.loop]
    norm_num
  · simp [weightOf]
  · simp [specWeight, canonical, List.range, List.range.loop]
  · simp [specWeight, canonical, List.range, List.range.loop]
  · simp [specWeight, canonical, List.range, List.range.loop]
    norm_num

/-! ## C11: non-positive window sizes -/

theorem outerLoop_no_steps (indices : List Int) (window_size : Int) (weights : List ℚ)
    (h : ∀ i, i < indices.length →
      windowEnd i window_size indices.length - (i + 1) = 0) :
    ∀ (steps i : Nat) (matrix : Matrix), i + steps ≤ indices.length →
      outerLoop indices window_size weights steps i matrix = some matrix := by
  intro steps
  induction steps with
  | zero => intro i matrix _; rfl
  | succ n ih =>
    intro i matrix hle
    have hi : i < indices.length := by omega
    rw [outerLoop, List.getElem?_eq_getElem hi]
    simp only [h i hi, innerLoop]
    exact ih (i + 1) matrix (by omega)

theorem processChunk_no_steps (word_to_index : WordIndex) (window_size : Int)
    (weights : List ℚ) (chunk : List Str)
    (h : ∀ line ∈ chunk, ∀ i, i < (lineIndices word_to_index line).length →
      windowEnd i window_size (lineIndices word_to_index line).length - (i + 1) = 0) :
    ∀ matrix : Matrix,
      processChunk chunk matrix word_to_index window_size weights = some matrix := by
  induction chunk with
  | nil => intro matrix; rfl
  | cons line rest ih =>
    intro matrix
    have hline : processLine word_to_index window_size weights matrix line = some matrix :=
      outerLoop_no_steps _ window_size weights (h line (List.mem_cons_self _ _)) _ 0 matrix
        (by omega)
    rw [processChunk_cons, hline]
    exact ih (fun l hl => h l (List.mem_cons_of_mem _ hl)) matrix

theorem processChunk_cat_sat_minus_two :
    processChunk ["the cat sat on it".toList] []
      [("cat".toList, 0), ("sat".toList, 1)] (-2) [1] = some [((0, 1), 1)] := by
  simp only [processChunk, processLine, lineIndices_cat_sat]
  simp [processIndices, outerLoop, innerLoop, windowEnd, toSizeT, SIZE_MOD, addWeight]

/-- C11, as stated, fails: with `window_size = -2` the sum `i + window_size + 1`
wraps to `2^64 - 1` for `i = 0`, so the inner loop runs and the line
`the cat sat on it` adds the key `(0, 1)` to the empty accumulator. -/
theorem processChunk_negative_window_counterexample :
    ¬ ∀ (window_size : Int) (chunk : List Str) (word_to_index : WordIndex)
        (weights : List ℚ) (matrix : Matrix), window_size ≤ 0 →
        (∀ i size : Nat, windowEnd i window_size size - (i + 1) = 0) ∧
          processChunk chunk matrix word_to_index window_size weights = some matrix := by
  intro h
  have h1 := (h (-2) ["the cat sat on it".toList] [("cat".toList, 0), ("sat".toList, 1)]
    [1] [] (by decide)).2
  rw [processChunk_cat_sat_minus_two] at h1
  simp at h1

theorem windowEnd_nonpositive (window_size : Int) (hw : window_size ≤ 0)
    (hint : -(2 ^ 31) ≤ window_size) (i size : Nat)
    (hi : -window_size - 1 ≤ (i : Int)) : windowEnd i window_size size - (i + 1) = 0 := by
  have hle : windowEnd i window_size size ≤ (i + toSizeT window_size + 1) % SIZE_MOD :=
    min_le_left _ _
  have hmod : (i + toSizeT window_size + 1) % SIZE_MOD ≤ i + 1 := by
    unfold toSizeT SIZE_MOD
    norm_num
    omega
  omega

/-- C11, amended. For every `int` `window_size ≤ 0` the inner loop of `processChunk`
runs zero times for every index `i ≥ -window_size - 1`; for `window_size = 0` and
`window_size = -1` that is every `i`, and then, for every chunk, index, weight
table and accumulator, the accumulator is returned unchanged. -/
theorem processChunk_zero_window (window_size : Int) (hw : window_size ≤ 0)
    (hint : -(2 ^ 31) ≤ window_size) (chunk : List Str) (matrix : Matrix)
    (word_to_index : WordIndex) (weights : List ℚ) :
    (∀ i size : Nat, -window_size - 1 ≤ (i : Int) →
      windowEnd i window_size size - (i + 1) = 0) ∧
    (window_size = 0 ∨ window_size = -1 →
      (∀ i size : Nat, windowEnd i window_size size - (i + 1) = 0) ∧
        processChunk chunk matrix word_to_index window_size weights = some matrix) := by
  refine ⟨fun i size hi => windowEnd_nonpositive window_size hw hint i size hi, ?_⟩
  intro h01
  have hsteps : ∀ i size : Nat, windowEnd i window_size size - (i + 1) = 0 := by
    intro i size
    exact windowEnd_nonpositive window_size hw hint i size (by omega)
  exact ⟨hsteps, processChunk_no_steps word_to_index window_size weights chunk
    (fun _ _ i _ => hsteps i _) matrix⟩

/-- C11 amended, at `window_size = -1` on the chunk `["the cat sat on it"]`. -/
theorem processChunk_zero_window_witness :
    processChunk ["the cat sat on it".toList] []
      [("cat".toList, 0), ("sat".toList, 1)] (-1) [1] = some [] :=
  ((processChunk_zero_window (-1) (by decide) (by decide) _ _ _ _).2 (Or.inr rfl)).2

/-! ## C12: degenerate input -/

/-- C12. For every window size (in particular every `window_size ≥ 0`) and every
weight table, a line whose id sequence has fewer than two ids leaves the
accumulator unchanged; so do the empty line and a line all of whose tokens are
too short or out of vocabulary, whose id sequence is empty.  `processChunk` on
the empty chunk leaves the accumulator unchanged, the read loop of `main` on an
empty corpus returns the empty accumulator, and the serializer then writes no
data row. -/
theorem processChunk_degenerate (word_to_index : WordIndex) (window_size : Int)
    (weights : List ℚ) (matrix : Matrix) :
    (∀ line : Str, (lineIndices word_to_index line).length < 2 →
      processChunk [line] matrix word_to_index window_size weights = some matrix) ∧
    lineIndices word_to_index [] = [] ∧
    (∀ line : Str,
      (∀ token ∈ specTokens line, (specNormalise token).length ≤ 2 ∨
        findWord word_to_index (specNormalise token) = none) →
      lineIndices word_to_index line = [] ∧
        processChunk [line] matrix word_to_index window_size weights = some matrix) ∧
    processChunk [] matrix word_to_index window_size weights = some matrix ∧
    (∀ CHUNK_SIZE : Nat,
      readLoop CHUNK_SIZE word_to_index window_size weights [] [] [] = some []) ∧
    (∀ index_to_word : List Str, writeRows index_to_word [] = some []) := by
  have hshort : ∀ line : Str, (lineIndices word_to_index line).length < 2 →
      processChunk [line] matrix word_to_index window_size weights = some matrix := by
    intro line hlen
    refine processChunk_no_steps word_to_index window_size weights [line] ?_ matrix
    intro l hl i hi
    rw [List.mem_singleton.mp hl] at hi ⊢
    have := (windowEnd_le i window_size (lineIndices word_to_index line).length).1
    omega
  refine ⟨hshort, rfl, ?_, rfl, fun _ => rfl, fun _ => rfl⟩
  intro line hall
  have hnil : lineIndices word_to_index line = [] := by
    rw [lineIndices, indexLoop_eq, extractWords_eq_specTokens, List.nil_append,
      List.filterMap_eq_nil_iff]
    intro token htok
    rcases hall token htok with h | h
    · have : ¬ (specNormalise token).length > 2 := by omega
      simp [this]
    · simp [h]
  exact ⟨hnil, hshort line (by rw [hnil]; decide)⟩

/-- C12, at the line `on it`, whose tokens are all too short. -/
theorem processChunk_degenerate_witness :
    processChunk ["on it".toList] [((0, 1), 1)] [("cat".toList, 0), ("sat".toList, 1)] 2
      (mkWeights 2) = some [((0, 1), 1)] :=
  (processChunk_degenerate [("cat".toList, 0), ("sat".toList, 1)] 2 (mkWeights 2)
    [((0, 1), 1)]).1 "on it".toList (by decide)

/-! ### Weights stored by the accumulator update -/

theorem weightOf_addWeight_self (matrix : Matrix) (key : Key) (delta : ℚ) :
    weightOf (addWeight matrix key delta) key =
      some ((weightOf matrix key).getD 0 + delta) := by
  induction matrix with
  | nil => simp [addWeight, weightOf]
  | cons kv rest ih =>
    obtain ⟨k0, v0⟩ := kv
    by_cases hk : k0 = key
    · simp [addWeight, weightOf, hk]
    · simp [addWeight, weightOf, hk, ih]

theorem weightOf_addWeight_ne (matrix : Matrix) (key : Key) (delta : ℚ) (k : Key)
    (hne : k ≠ key) : weightOf (addWeight matrix key delta) k = weightOf matrix k := by
  induction matrix with
  | nil =>
    have : ¬ key = k := fun h => hne h.symm
    simp [addWeight, weightOf, this]
  | cons kv rest ih =>
    obtain ⟨k0, v0⟩ := kv
    by_cases hk : k0 = key
    · have hk0 : ¬ k0 = k := fun h => hne (h.symm.trans hk)
      have hk1 : ¬ key = k := fun h => hne h.symm
      simp [addWeight, weightOf, hk, hk1]
    · by_cases hk0 : k0 = k
      · subst hk0
        simp [addWeight, weightOf, hk]
      · simp [addWeight, weightOf, hk, hk0, ih]

theorem grows_refl (matrix : Matrix) : Grows matrix matrix :=
  ⟨fun _ v hv => ⟨v, hv, le_refl v⟩, fun k v' h1 h2 => by rw [h1] at h2; cases h2⟩

theorem grows_trans (m1 m2 m3 : Matrix) (h12 : Grows m1 m2) (h23 : Grows m2 m3) :
    Grows m1 m3 := by
  constructor
  · intro k v hv
    obtain ⟨v2, hv2, hle2⟩ := h12.1 k v hv
    obtain ⟨v3, hv3, hle3⟩ := h23.1 k v2 hv2
    exact ⟨v3, hv3, le_trans hle2 hle3⟩
  · intro k v3 hnone hv3
    cases h2 : weightOf m2 k with
    | none => exact h23.2 k v3 h2 hv3
    | some v2 =>
      have hpos := h12.2 k v2 hnone h2
      obtain ⟨v3', hv3', hle⟩ := h23.1 k v2 h2
      rw [hv3] at hv3'
      cases hv3'
      exact lt_of_lt_of_le hpos hle

theorem grows_addWeight (matrix : Matrix) (key : Key) (delta : ℚ) (hd : 0 < delta) :
    Grows matrix (addWeight matrix key delta) := by
  constructor
  · intro k v hv
    by_cases hk : k = key
    · subst hk
      refine ⟨v + delta, ?_, by linarith⟩
      rw [weightOf_addWeight_self, hv]
      rfl
    · exact ⟨v, by rw [weightOf_addWeight_ne _ _ _ _ hk]; exact hv, le_refl v⟩
  · intro k v' hnone hv'
    by_cases hk : k = key
    · subst hk
      rw [weightOf_addWeight_self, hnone] at hv'
      simp only [Option.getD_none, zero_add, Option.some.injEq] at hv'
      rw [← hv']; exact hd
    · rw [weightOf_addWeight_ne _ _ _ _ hk, hnone] at hv'
      cases hv'

/-! ### Relations preserved by the window pass

`G` is a reflexive and transitive relation between accumulators that holds
between an accumulator and its update by any weight of the table. -/

theorem innerLoop_rel (indices : List Int) (weights : List ℚ) (i : Nat)
    (G : Matrix → Matrix → Prop) (hrefl : ∀ m, G m m)
    (htrans : ∀ m1 m2 m3, G m1 m2 → G m2 m3 → G m1 m3)
    (hadd : ∀ m key delta, delta ∈ weights → G m (addWeight m key delta)) :
    ∀ (steps j : Nat) (idx1 : Int) (matrix matrix' : Matrix),
      innerLoop indices weights i steps j idx1 matrix = some matrix' → G matrix matrix' := by
  intro steps
  induction steps with
  | zero =>
    intro j idx1 matrix matrix' hrun
    simp only [innerLoop, Option.some.injEq] at hrun
    rw [← hrun]; exact hrefl _
  | succ n ih =>
    intro j idx1 matrix matrix' hrun
    rw [innerLoop] at hrun
    cases hj : indices[j]? with
    | none => simp [hj] at hrun
    | some idx2 =>
      cases hw : weights[j - i - 1]? with
      | none => simp [hj, hw] at hrun
      | some weight =>
        simp only [hj, hw] at hrun
        exact htrans _ _ _ (hadd _ _ weight (List.getElem?_mem hw)) (ih _ _ _ _ hrun)

theorem outerLoop_rel (indices : List Int) (window_size : Int) (weights : List ℚ)
    (G : Matrix → Matrix → Prop) (hrefl : ∀ m, G m m)
    (htrans : ∀ m1 m2 m3, G m1 m2 → G m2 m3 → G m1 m3)
    (hadd : ∀ m key delta, delta ∈ weights → G m (addWeight m key delta)) :
    ∀ (steps i : Nat) (matrix matrix' : Matrix),
      outerLoop indices window_size weights steps i matrix = some matrix' →
      G matrix matrix' := by
  intro steps
  induction steps with
  | zero =>
    intro i matrix matrix' hrun
    simp only [outerLoop, Option.some.injEq] at hrun
    rw [← hrun]; exact hrefl _
  | succ n ih =>
    intro i matrix matrix' hrun
    rw [outerLoop] at hrun
    cases hi : indices[i]? with
    | none => simp [hi] at hrun
    | some idx1 =>
      simp only [hi] at hrun
      cases hin : innerLoop indices weights i
          (windowEnd i window_size indices.length - (i + 1)) (i + 1) idx1 matrix with
      | none => simp [hin] at hrun
      | some m1 =>
        simp only [hin] at hrun
        exact htrans _ _ _
          (innerLoop_rel indices weights i G hrefl htrans hadd _ _ _ _ _ hin)
          (ih _ _ _ hrun)

theorem processChunk_rel (word_to_index : WordIndex) (window_size : Int)
    (weights : List ℚ) (G : Matrix → Matrix → Prop) (hrefl : ∀ m, G m m)
    (htrans : ∀ m1 m2 m3, G m1 m2 → G m2 m3 → G m1 m3)
    (hadd : ∀ m key delta, delta ∈ weights → G m (addWeight m key delta))
    (chunk : List Str) :
    ∀ (matrix matrix' : Matrix),
      processChunk chunk matrix word_to_index window_size weights = some matrix' →
      G matrix matrix' := by
  induction chunk with
  | nil =>
    intro matrix matrix' hrun
    simp only [processChunk, Option.some.injEq] at hrun
    rw [← hrun]; exact hrefl _
  | cons line rest ih =>
    intro matrix matrix' hrun
    rw [processChunk_cons] at hrun
    cases hl : processLine word_to_index window_size weights matrix line with
    | none => simp [hl] at hrun
    | some m1 =>
      rw [hl, Option.some_bind] at hrun
      exact htrans _ _ _
        (outerLoop_rel _ window_size weights G hrefl htrans hadd _ _ _ _ hl) (ih _ _ hrun)

/-! ### The weight table of `main` -/

theorem mkWeights_length (w : Nat) : (mkWeights w).length = w := by
  simp only [mkWeights, List.length_map, List.length_range]

theorem mkWeights_getElem? (w d : Nat) (hd : d < w) :
    (mkWeights w)[d]? = some (1 / ((d : ℚ) + 1)) := by
  simp only [mkWeights, List.getElem?_map, List.getElem?_range hd, Option.map_some']

theorem mkWeights_pos (w : Nat) : ∀ x ∈ mkWeights w, (0 : ℚ) < x := by
  intro x hx
  simp only [mkWeights, List.mem_map, List.mem_range] at hx
  obtain ⟨i, _, rfl⟩ := hx
  positivity

theorem toSizeT_natCast_le (w : Nat) : toSizeT (w : Int) ≤ w := by
  unfold toSizeT SIZE_MOD
  norm_num
  omega

/-! ## C15: monotone growth -/

/-- C15. For every chunk, index and window size `w ≥ 0` with the weight table of
`main` (`weights[d] = 1/(d+1)`), `processChunk` returns an accumulator in which
every key present before the call is present with a weight `≥` its previous
weight (so no key is removed) and every key created by the call has a weight
`> 0`; each update adds `delta` to the weight stored under its key, creating the
entry with value `delta` when the key is absent, and changes no other key. -/
theorem processChunk_monotone (chunk : List Str) (matrix : Matrix)
    (word_to_index : WordIndex) (w : Nat) :
    (∃ matrix', processChunk chunk matrix word_to_index (w : Int) (mkWeights w)
        = some matrix' ∧
      (∀ k v, weightOf matrix k = some v → ∃ v', weightOf matrix' k = some v' ∧ v ≤ v') ∧
      (∀ k v', weightOf matrix k = none → weightOf matrix' k = some v' → 0 < v')) ∧
    (∀ (m : Matrix) (key : Key) (delta : ℚ),
      weightOf (addWeight m key delta) key = some ((weightOf m key).getD 0 + delta) ∧
        ∀ k, k ≠ key → weightOf (addWeight m key delta) k = weightOf m k) := by
  constructor
  · obtain ⟨m', hm'⟩ := processChunk_isSome word_to_index (w : Int) (mkWeights w)
      (by rw [mkWeights_length]; exact toSizeT_natCast_le w) chunk matrix
    have hg : Grows matrix m' :=
      processChunk_rel word_to_index (w : Int) (mkWeights w) Grows grows_refl grows_trans
        (fun m key delta hd => grows_addWeight m key delta (mkWeights_pos w delta hd))
        chunk matrix m' hm'
    exact ⟨m', hm', hg.1, hg.2⟩
  · intro m key delta
    exact ⟨weightOf_addWeight_self m key delta,
      fun k hk => weightOf_addWeight_ne m key delta k hk⟩

/-! ## C16: indexing of the weight table -/

/-- C16. For every window size `w ≥ 0` the table built by `main` has exactly `w`
entries with `weights[d] = 1/(d+1)`; for every length of the id sequence, every
index `j - i - 1` read by the inner loop (`i < j < window_end`) is `< w`, so that
`processChunk` never reads outside the table (it returns for every chunk, index
and accumulator); and the pair at distance `k` in `[1, w]` reads
`weights[k-1] = 1/k`. -/
theorem weights_indexing (w : Nat) :
    (mkWeights w).length = w ∧
    (∀ d, d < w → (mkWeights w)[d]? = some (1 / ((d : ℚ) + 1))) ∧
    (∀ size i j : Nat, i < j → j < windowEnd i (w : Int) size → j - i - 1 < w) ∧
    (∀ (chunk : List Str) (matrix : Matrix) (word_to_index : WordIndex),
      ∃ matrix', processChunk chunk matrix word_to_index (w : Int) (mkWeights w)
        = some matrix') ∧
    (∀ k : Nat, 1 ≤ k → k ≤ w → (mkWeights w)[k - 1]? = some (1 / (k : ℚ))) := by
  refine ⟨mkWeights_length w, fun d hd => mkWeights_getElem? w d hd, ?_, ?_, ?_⟩
  · intro size i j hij hj
    have h1 := (windowEnd_le i (w : Int) size).2
    have h2 := toSizeT_natCast_le w
    omega
  · intro chunk matrix word_to_index
    exact processChunk_isSome word_to_index (w : Int) (mkWeights w)
      (by rw [mkWeights_length]; exact toSizeT_natCast_le w) chunk matrix
  · intro k h1 hk
    rw [mkWeights_getElem? w (k - 1) (by omega)]
    congr 2
    have : ((k - 1 : Nat) : ℚ) = (k : ℚ) - 1 := by
      rw [Nat.cast_sub h1]; simp
    rw [this]; ring

/-- C16, at window size `2`: the pair at distance `2` reads `weights[1] = 1/2`. -/
theorem weights_indexing_witness : (mkWeights 2)[2 - 1]? = some (1 / ((2 : Nat) : ℚ)) :=
  (weights_indexing 2).2.2.2.2 2 (by decide) (by decide)

/-! ## C17: the key of each update -/

theorem runningMin_succ (ids : List Int) (i j : Nat) (hij : i ≤ j) :
    runningMin ids i (j + 1) = min (runningMin ids i j) (ids.getD j 0) := by
  unfold runningMin
  have h1 : j + 1 - i = (j - i) + 1 := by omega
  have h2 : i + 1 * (j - i) = j := by omega
  rw [h1, List.range'_concat, List.foldl_append, h2]
  rfl

theorem runningMin_self (ids : List Int) (i : Nat) :
    runningMin ids i (i + 1) = ids.getD i 0 := by
  rw [runningMin_succ ids i i (le_refl i)]
  simp [runningMin]

theorem foldl_min_le (f : Nat → Int) (l : List Nat) :
    ∀ b : Int, l.foldl (fun m k => min m (f k)) b ≤ b := by
  induction l with
  | nil => intro b; exact le_refl b
  | cons k t ih =>
    intro b
    rw [List.foldl_cons]
    exact le_trans (ih _) (min_le_left _ _)

theorem foldl_min_eq_iff (f : Nat → Int) (l : List Nat) :
    ∀ b : Int, l.foldl (fun m k => min m (f k)) b = b ↔ ∀ k ∈ l, b ≤ f k := by
  induction l with
  | nil => intro b; simp
  | cons k t ih =>
    intro b
    rw [List.foldl_cons]
    by_cases hk : b ≤ f k
    · rw [min_eq_left hk, ih b]
      constructor
      · intro h k' hk'
        rcases List.mem_cons.mp hk' with h1 | h1
        · rw [h1]; exact hk
        · exact h k' h1
      · intro h k' hk'
        exact h k' (List.mem_cons_of_mem _ hk')
    · have hlt : f k < b := by omega
      rw [min_eq_right (le_of_lt hlt)]
      constructor
      · intro h
        have := foldl_min_le f t (f k)
        omega
      · intro h
        exact absurd (h k (List.mem_cons_self _ _)) hk

theorem runningMin_eq_iff (ids : List Int) (i j : Nat) :
    runningMin ids i j = ids.getD i 0 ↔
      ∀ k, i < k → k < j → ids.getD i 0 ≤ ids.getD k 0 := by
  unfold runningMin
  rw [foldl_min_eq_iff (fun k => ids.getD k 0)]
  constructor
  · intro h k hik hkj
    exact h k (List.mem_range'_1.mpr ⟨by omega, by omega⟩)
  · intro h k hk
    obtain ⟨h1, h2⟩ := List.mem_range'_1.mp hk
    rcases Nat.eq_or_lt_of_le h1 with heq | hlt
    · rw [← heq]
    · exact h k hlt (by omega)

theorem actualKey_eq_canonical_iff (ids : List Int) (i j : Nat) :
    actualKey ids i j = canonical (ids.getD i 0) (ids.getD j 0) ↔
      ∀ k, i < k → k < j → ids.getD i 0 ≤ ids.getD k 0 := by
  rw [← runningMin_eq_iff]
  have hle : runningMin ids i j ≤ ids.getD i 0 := foldl_min_le _ _ _
  unfold actualKey canonical
  rw [Prod.mk.injEq]
  constructor
  · rintro ⟨h1, h2⟩
    simp only [min_def, max_def] at h1 h2
    split_ifs at h1 h2 <;> omega
  · intro h
    rw [h]
    exact ⟨rfl, rfl⟩

theorem applyUpdates_append (matrix : Matrix) (u1 u2 : List (Key × ℚ)) :
    applyUpdates matrix (u1 ++ u2) = applyUpdates (applyUpdates matrix u1) u2 := by
  simp [applyUpdates]

theorem innerLoop_updates (ids : List Int) (w i : Nat) :
    ∀ (steps j : Nat) (idx1 : Int) (matrix : Matrix), i < j →
      j + steps ≤ ids.length → j + steps ≤ i + 1 + w → idx1 = runningMin ids i j →
      innerLoop ids (mkWeights w) i steps j idx1 matrix =
        some (applyUpdates matrix ((List.range' j steps).map fun (j' : Nat) =>
          (actualKey ids i j', 1 / ((j' : ℚ) - (i : ℚ))))) := by
  intro steps
  induction steps with
  | zero => intro j idx1 matrix _ _ _ _; rfl
  | succ n ih =>
    intro j idx1 matrix hij h1 h2 hidx
    have hj : j < ids.length := by omega
    have hd : j - i - 1 < w := by omega
    have hcast : ((j - i - 1 : Nat) : ℚ) + 1 = (j : ℚ) - (i : ℚ) := by
      obtain ⟨d, rfl⟩ : ∃ d, j = i + 1 + d := ⟨j - i - 1, by omega⟩
      have : i + 1 + d - i - 1 = d := by omega
      rw [this]
      push_cast
      ring
    have hget : ids.getD j 0 = ids[j] := by
      rw [List.getD_eq_getElem?_getD, List.getElem?_eq_getElem hj]; rfl
    have hkey : ((if idx1 > ids[j] then ids[j] else idx1),
        (if idx1 > ids[j] then idx1 else ids[j])) = actualKey ids i j := by
      unfold actualKey
      rw [hget, ← hidx, Prod.mk.injEq]
      constructor
      · simp only [min_def]; split_ifs <;> omega
      · simp only [max_def]; split_ifs <;> omega
    have hmin : (if idx1 > ids[j] then ids[j] else idx1) = runningMin ids i (j + 1) := by
      rw [runningMin_succ ids i j (le_of_lt hij), hget, ← hidx]
      simp only [min_def]; split_ifs <;> omega
    rw [innerLoop, List.getElem?_eq_getElem hj, mkWeights_getElem? w _ hd]
    simp only [hkey, hcast]
    rw [ih (j + 1) _ _ (by omega) (by omega) (by omega) hmin, List.range'_succ,
      List.map_cons]
    rfl

theorem outerLoop_updates (ids : List Int) (w : Nat) (hsize : ids.length + w < 2 ^ 64) :
    ∀ (steps i : Nat) (matrix : Matrix), i + steps ≤ ids.length →
      outerLoop ids (w : Int) (mkWeights w) steps i matrix =
        some (applyUpdates matrix ((List.range' i steps).flatMap fun i' =>
          (List.range' (i' + 1) (min (i' + w) (ids.length - 1) - i')).map
            fun (j : Nat) => (actualKey ids i' j, 1 / ((j : ℚ) - (i' : ℚ))))) := by
  intro steps
  induction steps with
  | zero => intro i matrix _; rfl
  | succ n ih =>
    intro i matrix hle
    have hi : i < ids.length := by omega
    have hend : windowEnd i (w : Int) ids.length - (i + 1) =
        min (i + w) (ids.length - 1) - i := by
      have hw : toSizeT (w : Int) = w := by
        unfold toSizeT SIZE_MOD
        norm_num
        omega
      unfold windowEnd
      rw [hw, Nat.mod_eq_of_lt (by unfold SIZE_MOD; omega)]
      omega
    have hget : ids.getD i 0 = ids[i] := by
      rw [List.getD_eq_getElem?_getD, List.getElem?_eq_getElem hi]; rfl
    rw [outerLoop, List.getElem?_eq_getElem hi]
    simp only [hend]
    rw [innerLoop_updates ids w i _ (i + 1) ids[i] matrix (by omega) (by omega) (by omega)
      (by rw [runningMin_self, hget])]
    simp only
    rw [ih (i + 1) _ (by omega), List.range'_succ, List.flatMap_cons, applyUpdates_append]

theorem actualUpdates_example :
    actualUpdates [5, 2, 7] 2 = [((2, 5), 1), ((2, 7), 1 / 2), ((2, 7), 1)] := by
  simp [actualUpdates, actualKey, runningMin, List.range, List.range.loop, List.range']
  norm_num

/-- C17. For every id sequence `ids` and window size `w ≥ 0` (with
`n + w < 2^64`, so that line 53 does not wrap) and the weight table of `main`,
the window pass performs exactly the updates
`matrix[(min(m, ids[j]), max(m, ids[j]))] += 1/(j-i)` for the index pairs
`i < j ≤ min(i+w, n-1)`, in loop order, where `m` is the minimum of
`ids[i], ..., ids[j-1]`; and for `i < j < n` that key is the canonical pair of
`(ids[i], ids[j])` if and only if `ids[i] ≤ ids[k]` for every `i < k < j`. -/
theorem processIndices_actual_updates (ids : List Int) (w : Nat) (matrix : Matrix)
    (hsize : ids.length + w < 2 ^ 64) :
    processIndices ids matrix (w : Int) (mkWeights w) =
        some (applyUpdates matrix (actualUpdates ids w)) ∧
      ∀ i j : Nat, i < j → j < ids.length →
        (actualKey ids i j = canonical (ids.getD i 0) (ids.getD j 0) ↔
          ∀ k, i < k → k < j → ids.getD i 0 ≤ ids.getD k 0) := by
  constructor
  · rw [processIndices, outerLoop_updates ids w hsize ids.length 0 matrix (by omega),
      actualUpdates, List.range_eq_range']
  · intro i j _ _
    exact actualKey_eq_canonical_iff ids i j

/-- C17, at the id sequence `[5, 2, 7]` with window size `2`: the pair `(0, 2)` is
keyed with the running minimum `2`, not with `ids[0] = 5`. -/
theorem processIndices_actual_updates_witness :
    processIndices [5, 2, 7] [] ((2 : Nat) : Int) (mkWeights 2) =
      some (applyUpdates [] (actualUpdates [5, 2, 7] 2)) :=
  (processIndices_actual_updates [5, 2, 7] 2 [] (by decide)).1

/-! ### Reading the fields of a vocabulary row -/

theorem readUntil_spec (delim : Char) (s : Str) :
    ((readUntil delim s).2 = none → (readUntil delim s).1 = s ∧ delim ∉ s) ∧
    (∀ rest, (readUntil delim s).2 = some rest →
      s = (readUntil delim s).1 ++ delim :: rest ∧ delim ∉ (readUntil delim s).1) := by
  induction s with
  | nil => simp [readUntil]
  | cons c cs ih =>
    by_cases hc : c = delim
    · subst hc
      simp [readUntil]
    · have hc' : ¬ delim = c := fun h => hc h.symm
      simp only [readUntil, hc, if_false]
      constructor
      · intro h
        obtain ⟨h1, h2⟩ := ih.1 h
        exact ⟨by rw [h1], by simp [hc', h2]⟩
      · intro rest h
        obtain ⟨h1, h2⟩ := ih.2 rest h
        refine ⟨?_, by simp [hc', h2]⟩
        rw [List.cons_append, ← h1]

theorem readUntil_append (delim : Char) (field rest : Str) (h : delim ∉ field) :
    readUntil delim (field ++ delim :: rest) = (field, some rest) := by
  induction field with
  | nil => simp [readUntil]
  | cons c cs ih =>
    have hc : ¬ c = delim := fun hcd => h (by rw [hcd]; exact List.mem_cons_self _ _)
    have hcs : delim ∉ cs := fun hm => h (List.mem_cons_of_mem _ hm)
    simp [readUntil, hc, ih hcs]

theorem getline_some_iff (rest : Str) (delim : Char) (field : Str) (next : Str) :
    getline ⟨rest, false⟩ delim = some (field, ⟨next, false⟩) ↔
      rest = field ++ delim :: next ∧ delim ∉ field := by
  constructor
  · intro h
    simp only [getline, Bool.false_eq_true, if_false] at h
    have hspec := readUntil_spec delim rest
    cases h2 : (readUntil delim rest).2 with
    | none =>
      have : readUntil delim rest = ((readUntil delim rest).1, none) := by rw [← h2]
      rw [this] at h
      simp only at h
      split_ifs at h
      simp at h
    | some r =>
      have hpair : readUntil delim rest = ((readUntil delim rest).1, some r) := by rw [← h2]
      rw [hpair] at h
      simp only [Option.some.injEq, Prod.mk.injEq, LineStream.mk.injEq, and_true] at h
      obtain ⟨h3, h4⟩ := hspec.2 r h2
      rw [h.1] at h3 h4
      rw [h.2] at h3
      exact ⟨h3, h4⟩
  · rintro ⟨h1, h2⟩
    simp only [getline, Bool.false_eq_true, if_false, h1, readUntil_append delim field next h2]

theorem getline_eof (next : LineStream) (hn : next.eof = true) (delim : Char) :
    getline next delim = none := by
  simp [getline, hn]

theorem getline_last_isSome_iff (rest : Str) (delim : Char) :
    (getline ⟨rest, false⟩ delim).isSome = true ↔ rest ≠ [] := by
  simp only [getline, Bool.false_eq_true, if_false]
  have hspec := readUntil_spec delim rest
  cases h2 : (readUntil delim rest).2 with
  | none =>
    have hpair : readUntil delim rest = ((readUntil delim rest).1, none) := by rw [← h2]
    obtain ⟨h3, _⟩ := hspec.1 h2
    rw [hpair]
    simp only
    rw [h3]
    by_cases hr : rest = []
    · simp [hr]
    · simp [hr]
  | some r =>
    have hpair : readUntil delim rest = ((readUntil delim rest).1, some r) := by rw [← h2]
    obtain ⟨h3, _⟩ := hspec.2 r h2
    rw [hpair]
    simp only [Option.isSome_some, true_iff]
    intro hr
    rw [hr] at h3
    simp at h3

theorem getline_next_eof (rest : Str) (delim : Char) (field : Str) (next : LineStream)
    (h : getline ⟨rest, false⟩ delim = some (field, next)) :
    next.eof = true ∨ next.eof = false ∧
      getline ⟨rest, false⟩ delim = some (field, ⟨next.rest, false⟩) := by
  cases he : next.eof with
  | true => exact Or.inl rfl
  | false =>
    refine Or.inr ⟨rfl, ?_⟩
    rw [h]
    cases next
    simp only at he
    rw [he]

theorem normalizeLoop_eq (word : Str) :
    ∀ clean_word : Str, normalizeLoop word clean_word = cleanLoop word clean_word := by
  induction word with
  | nil => intro clean_word; rfl
  | cons c rest ih =>
    intro clean_word
    by_cases hc : isalnum c = true
    · simp only [normalizeLoop, cleanLoop, hc, if_true, ih]
    · simp only [normalizeLoop, cleanLoop, hc, if_false, ih]

theorem normalizeWord_eq (word : Str) : normalizeWord word = cleanWord word :=
  normalizeLoop_eq word []

theorem parseRow_some_iff (row w : Str) (n : Int) :
    parseRow row = some (w, n) ↔
      ∃ word id word_count doc : Str,
        row = word ++ ',' :: (id ++ ',' :: (word_count ++ ',' :: doc)) ∧
        ',' ∉ word ∧ ',' ∉ id ∧ ',' ∉ word_count ∧ doc ≠ [] ∧
        stoi word_count = Except.ok n ∧ w = specNormalise word ∧ w.length > 2 := by
  constructor
  · intro h
    unfold parseRow at h
    cases h1 : getline ⟨row, false⟩ ',' with
    | none => simp [h1] at h
    | some p1 =>
      obtain ⟨word, s1⟩ := p1
      simp only [h1] at h
      rcases getline_next_eof row ',' word s1 h1 with he1 | ⟨_, h1'⟩
      · rw [getline_eof s1 he1] at h
        simp at h
      obtain ⟨hrow, hword⟩ := (getline_some_iff row ',' word s1.rest).mp h1'
      cases h2 : getline s1 ',' with
      | none => simp [h2] at h
      | some p2 =>
        obtain ⟨id, s2⟩ := p2
        simp only [h2] at h
        have hs1 : s1 = ⟨s1.rest, false⟩ := by
          rw [h1] at h1'
          simpa using h1'
        rw [hs1] at h2
        rcases getline_next_eof s1.rest ',' id s2 h2 with he2 | ⟨_, h2'⟩
        · rw [getline_eof s2 he2] at h
          simp at h
        obtain ⟨hrest1, hid⟩ := (getline_some_iff s1.rest ',' id s2.rest).mp h2'
        cases h3 : getline s2 ',' with
        | none => simp [h3] at h
        | some p3 =>
          obtain ⟨word_count, s3⟩ := p3
          simp only [h3] at h
          have hs2 : s2 = ⟨s2.rest, false⟩ := by
            rw [h2] at h2'
            simpa using h2'
          rw [hs2] at h3
          rcases getline_next_eof s2.rest ',' word_count s3 h3 with he3 | ⟨he3, h3'⟩
          · rw [getline_eof s3 he3] at h
            simp at h
          obtain ⟨hrest2, hwc⟩ := (getline_some_iff s2.rest ',' word_count s3.rest).mp h3'
          have hs3 : s3 = ⟨s3.rest, false⟩ := by
            rw [h3] at h3'
            simpa using h3'
          cases h4 : getline s3 '\n' with
          | none => simp [h4] at h
          | some p4 =>
            simp only [h4] at h
            have hdoc : s3.rest ≠ [] := by
              rw [hs3] at h4
              exact (getline_last_isSome_iff s3.rest '\n').mp (by rw [h4]; rfl)
            cases hst : stoi word_count with
            | error e => simp [hst] at h
            | ok v =>
              simp only [hst] at h
              split_ifs at h with hlen
              simp only [Option.some.injEq, Prod.mk.injEq] at h
              refine ⟨word, id, word_count, s3.rest, ?_, hword, hid, hwc, hdoc, ?_, ?_, ?_⟩
              · rw [hrow, hrest1, hrest2]
              · rw [← h.2]; exact hst
              · rw [← h.1, normalizeWord_eq, cleanWord_eq]
              · rw [← h.1]; exact hlen.2
  · rintro ⟨word, id, word_count, doc, hrow, hword, hid, hwc, hdoc, hst, hw, hlen⟩
    have g1 : getline ⟨row, false⟩ ',' =
        some (word, ⟨id ++ ',' :: (word_count ++ ',' :: doc), false⟩) :=
      (getline_some_iff _ _ _ _).mpr ⟨hrow, hword⟩
    have g2 : getline ⟨id ++ ',' :: (word_count ++ ',' :: doc), false⟩ ',' =
        some (id, ⟨word_count ++ ',' :: doc, false⟩) :=
      (getline_some_iff _ _ _ _).mpr ⟨rfl, hid⟩
    have g3 : getline ⟨word_count ++ ',' :: doc, false⟩ ',' =
        some (word_count, ⟨doc, false⟩) :=
      (getline_some_iff _ _ _ _).mpr ⟨rfl, hwc⟩
    obtain ⟨p4, g4⟩ := Option.isSome_iff_exists.mp
      ((getline_last_isSome_iff doc '\n').mpr hdoc)
    have hnorm : normalizeWord word = w := by
      rw [normalizeWord_eq, cleanWord_eq, hw]
    have hne : w ≠ [] := by
      intro h0
      rw [h0] at hlen
      simp at hlen
    unfold parseRow
    simp only [g1, g2, g3, g4, hst, hnorm]
    simp [hne, hlen]

theorem loadRows_eq (rows : List Str) :
    ∀ word_counts : List (Str × Int),
      loadRows rows word_counts = word_counts ++ rows.filterMap parseRow := by
  induction rows with
  | nil => intro word_counts; simp [loadRows]
  | cons row rest ih =>
    intro word_counts
    rw [loadRows]
    cases h : parseRow row with
    | none => simp only [ih, List.filterMap_cons, h]
    | some entry =>
      simp only [ih, List.filterMap_cons, h, List.append_assoc, List.singleton_append]

/-! ## C14: vocabulary row filtering -/

/-- C14, as stated, fails: the row `abcd,0,99999999999,1` has the four fields, a
numeric `word_count` field and a normalised word of length `4`, but it is
skipped, because `std::stoi` throws `out_of_range`. -/
theorem parseRow_numeric_counterexample :
    ¬ ∀ row : Str, ((parseRow row).isSome = true ↔ specAdmits row = true) := by
  intro h
  have h1 := (h "abcd,0,99999999999,1".toList).mpr (by decide)
  revert h1
  decide

/-- C14, amended. Loading keeps, in file order, exactly the entries of the rows
that contribute one, and no row aborts the load; a row contributes the entry
`(w, n)` if and only if it consists of three comma-terminated fields `word`, `id`,
`word_count` followed by a non-empty rest, `std::stoi` converts `word_count` to
the `int` `n` without throwing, and `w`, the normalisation of `word`, has length
`> 2`. -/
theorem loadRows_filter (rows : List Str) :
    loadRows rows [] = rows.filterMap parseRow ∧
    ∀ (row w : Str) (n : Int),
      parseRow row = some (w, n) ↔
        ∃ word id word_count doc : Str,
          row = word ++ ',' :: (id ++ ',' :: (word_count ++ ',' :: doc)) ∧
          ',' ∉ word ∧ ',' ∉ id ∧ ',' ∉ word_count ∧ doc ≠ [] ∧
          stoi word_count = Except.ok n ∧ w = specNormalise word ∧ w.length > 2 :=
  ⟨by rw [loadRows_eq, List.nil_append], parseRow_some_iff⟩

/-- C14 amended, at the row `"hello",0,12,3`. -/
theorem loadRows_filter_witness :
    parseRow "\"hello\",0,12,3".toList = some ("hello".toList, 12) :=
  ((loadRows_filter []).2 "\"hello\",0,12,3".toList "hello".toList 12).mpr
    ⟨"\"hello\"".toList, "0".toList, "12".toList, "3".toList, by decide, by decide,
      by decide, by decide, by decide, rfl, by decide, by decide⟩

/-! ## C13: lookup consistency -/

theorem tolower_of_upper (c : Char) (h : 65 ≤ c.toNat ∧ c.toNat ≤ 90) :
    isalnum (tolower c) = true ∧ tolower (tolower c) = tolower c := by
  have hc := Char.ofNat_toNat c
  obtain ⟨h1, h2⟩ := h
  generalize c.toNat = n at h1 h2 hc
  subst hc
  interval_cases n <;> decide

theorem isalnum_tolower (c : Char) (h : isalnum c = true) : isalnum (tolower c) = true := by
  by_cases hu : 65 ≤ c.toNat ∧ c.toNat ≤ 90
  · exact (tolower_of_upper c hu).1
  · rw [tolower, if_neg hu]; exact h

theorem tolower_tolower (c : Char) : tolower (tolower c) = tolower c := by
  by_cases hu : 65 ≤ c.toNat ∧ c.toNat ≤ 90
  · exact (tolower_of_upper c hu).2
  · have : tolower c = c := by rw [tolower, if_neg hu]
    rw [this, this]

theorem specNormalise_idem (w : Str) :
    specNormalise (specNormalise w) = specNormalise w := by
  induction w with
  | nil => rfl
  | cons c t ih =>
    by_cases hc : isalnum c = true
    · have h1 : specNormalise (c :: t) = tolower c :: specNormalise t := by
        simp [specNormalise, hc]
      have h2 : specNormalise (tolower c :: specNormalise t) =
          tolower (tolower c) :: specNormalise (specNormalise t) := by
        simp [specNormalise, isalnum_tolower c hc]
      rw [h1, h2, ih, tolower_tolower]
    · have h1 : specNormalise (c :: t) = specNormalise t := by
        simp [specNormalise, hc]
      rw [h1, ih]

theorem extractWords_no_space (r : Str) (hr : ∀ ch ∈ r, isspace ch = false) :
    ∀ cur : Str, extractWords r cur = if cur ++ r = [] then [] else [cur ++ r] := by
  induction r with
  | nil =>
    intro cur
    simp [extractWords]
  | cons c t ih =>
    intro cur
    have hc : isspace c = false := hr c (List.mem_cons_self _ _)
    simp only [extractWords, hc, Bool.false_eq_true, if_false]
    rw [ih (fun ch hch => hr ch (List.mem_cons_of_mem _ hch)) (cur ++ [c])]
    simp

theorem buildIndex_key_mem (word_counts : List (Str × Int)) (top_words : Nat) :
    ∀ kv ∈ (buildIndex word_counts top_words).1,
      kv.1 ∈ (word_counts.take (vocabSize word_counts top_words)).map Prod.fst := by
  intro kv hkv
  obtain ⟨_, hfs⟩ := buildLoop_keys
    (word_counts.take (vocabSize word_counts top_words)) 0 [] [] (by simp)
  have hmem : kv.1 ∈ ((buildIndex word_counts top_words).1.map Prod.fst).toFinset :=
    List.mem_toFinset.mpr (List.mem_map.mpr ⟨kv, hkv, rfl⟩)
  have hfs' : ((buildIndex word_counts top_words).1.map Prod.fst).toFinset =
      ((word_counts.take (vocabSize word_counts top_words)).map Prod.fst).toFinset := by
    have := hfs
    simp only [List.map_nil, List.toFinset_nil, Finset.empty_union] at this
    exact this
  rw [hfs'] at hmem
  exact List.mem_toFinset.mp hmem

theorem loadRows_entry (rows : List Str) :
    ∀ e ∈ loadRows rows [], (∃ word, e.1 = specNormalise word) ∧ e.1.length > 2 := by
  intro e he
  rw [loadRows_eq, List.nil_append, List.mem_filterMap] at he
  obtain ⟨row, _, hrow⟩ := he
  obtain ⟨word, _, _, _, _, _, _, _, _, _, hw, hlen⟩ :=
    (parseRow_some_iff row e.1 e.2).mp hrow
  exact ⟨⟨word, hw⟩, hlen⟩

theorem toInt_of_lt (n : Nat) (h : n < 2 ^ 31) : toInt n = (n : Int) := by
  unfold toInt
  have h1 : n % 2 ^ 32 = n := Nat.mod_eq_of_lt (by omega)
  rw [h1, if_pos h]

theorem toSizeT_natCast (n : Nat) (h : n < 2 ^ 64) : toSizeT (n : Int) = n := by
  unfold toSizeT SIZE_MOD
  norm_num
  omega

/-- C13. The normalisation of vocabulary words in `main` is the function applied
to corpus tokens in `processChunk`, and it is idempotent; for every vocabulary
file, every result of the sort and every cap, each key of `word_to_index` is its
own normalisation and has length `> 2`; and, when `vocab_size ≤ 2^31` (ids fit an
`int`), for every whitespace-free raw word `r` whose entry is among the first
`vocab_size` ranked rows, the line `r` is tokenised to exactly one id and
`index_to_word` at that id is the normalisation of `r`. -/
theorem lookup_consistency (rows : List Str) (sorted : List (Str × Int))
    (top_words : Nat) (hsort : SortResult (loadRows rows []) sorted) :
    (∀ w : Str, normalizeWord w = cleanWord w) ∧
    (∀ w : Str, cleanWord (cleanWord w) = cleanWord w) ∧
    (∀ kv ∈ (buildIndex sorted top_words).1, cleanWord kv.1 = kv.1 ∧ kv.1.length > 2) ∧
    (vocabSize sorted top_words ≤ 2 ^ 31 →
      ∀ (r : Str) (c : Int) (i : Nat), (∀ ch ∈ r, isspace ch = false) →
        i < vocabSize sorted top_words → sorted[i]? = some (cleanWord r, c) →
        ∃ id : Int, lineIndices (buildIndex sorted top_words).1 r = [id] ∧
          (buildIndex sorted top_words).2[toSizeT id]? = some (cleanWord r)) := by
  have hidem : ∀ w : Str, cleanWord (cleanWord w) = cleanWord w := by
    intro w
    rw [cleanWord_eq, cleanWord_eq, specNormalise_idem]
  have hentry : ∀ e ∈ sorted, (∃ word, e.1 = specNormalise word) ∧ e.1.length > 2 :=
    fun e he => loadRows_entry rows e (hsort.1.mem_iff.mp he)
  refine ⟨normalizeWord_eq, hidem, ?_, ?_⟩
  · intro kv hkv
    obtain ⟨e, he, hek⟩ := List.mem_map.mp (buildIndex_key_mem sorted top_words kv hkv)
    obtain ⟨⟨word, hw⟩, hlen⟩ := hentry e (List.mem_of_mem_take he)
    rw [← hek]
    refine ⟨?_, hlen⟩
    rw [hw, cleanWord_eq, specNormalise_idem]
  · intro hV r c i hr hi hsorted
    have hlen : (cleanWord r).length > 2 := (hentry _ (List.getElem?_mem hsorted)).2
    have hmem : cleanWord r ∈
        (sorted.take (vocabSize sorted top_words)).map Prod.fst := by
      refine List.mem_map.mpr ⟨(cleanWord r, c), ?_, rfl⟩
      refine List.getElem?_mem (n := i) ?_
      rw [List.getElem?_take_of_lt hi]
      exact hsorted
    obtain ⟨n, e, hn, he, hlast⟩ := exists_last_occurrence (cleanWord r) _ hmem
    have hfind : findWord (buildIndex sorted top_words).1 (cleanWord r) =
        some (toInt n) := by
      have := buildLoop_find_last (cleanWord r)
        (sorted.take (vocabSize sorted top_words)) n 0 [] [] e hn he hlast
      rwa [Nat.zero_add] at this
    have hnlt : n < (sorted.take (vocabSize sorted top_words)).length :=
      (List.getElem?_eq_some_iff.mp hn).1
    have hnV : n < vocabSize sorted top_words := by
      rw [List.length_take] at hnlt
      omega
    have hrne : r ≠ [] := by
      intro h0
      rw [h0] at hlen
      simp [cleanWord, cleanLoop] at hlen
    refine ⟨toInt n, ?_, ?_⟩
    · rw [lineIndices, extractWords_no_space r hr [], indexLoop_eq]
      simp only [List.nil_append, hrne, if_false]
      rw [cleanWord_eq] at hlen hfind
      simp [hlen, hfind]
    · rw [toInt_of_lt n (by omega), toSizeT_natCast n (by omega), buildIndex_snd,
        List.getElem?_map, hn, ← he]
      rfl

/-- C13, at a vocabulary file with the rows `"Hello",0,12,3` and `the,1,40,9`: the
raw word `"Hello"` is tokenised to one id, at which `index_to_word` holds
`hello`. -/
theorem lookup_consistency_witness :
    ∃ id : Int,
      lineIndices (buildIndex [("the".toList, 40), ("hello".toList, 12)] 2).1
          "\"Hello\"".toList = [id] ∧
        (buildIndex [("the".toList, 40), ("hello".toList, 12)] 2).2[toSizeT id]? =
          some (cleanWord "\"Hello\"".toList) :=
  (lookup_consistency ["\"Hello\",0,12,3".toList, "the,1,40,9".toList]
    [("the".toList, 40), ("hello".toList, 12)] 2 ⟨by decide, by decide⟩).2.2.2
    (by decide) "\"Hello\"".toList 12 1 (by decide) (by decide) (by decide)

/-! ### Counters of the vocabulary stage -/

theorem wrap32_of_range (x : Int) (h0 : -(2 ^ 31) ≤ x) (h1 : x < 2 ^ 31) : wrap32 x = x := by
  unfold wrap32
  omega

theorem incrInt_wrap32 (x : Int) : incrInt (wrap32 x) = wrap32 (x + 1) := by
  unfold incrInt wrap32
  omega

theorem iterate_incrInt (k : Nat) (x : Int) : incrInt^[k] (wrap32 x) = wrap32 (x + k) := by
  induction k with
  | zero => simp
  | succ n ih =>
    rw [Function.iterate_succ_apply', ih, incrInt_wrap32]
    congr 1
    push_cast
    ring

theorem findStats_bumpWordCount_self (vocabulary : Vocabulary) (word : Str) :
    findStats (bumpWordCount vocabulary word) word =
      some { wordCount := incrInt (statsOf vocabulary word).wordCount,
             documentCount := (statsOf vocabulary word).documentCount } := by
  induction vocabulary with
  | nil => simp [bumpWordCount, findStats, statsOf]
  | cons kv rest ih =>
    obtain ⟨k, st⟩ := kv
    by_cases hk : k = word
    · simp [bumpWordCount, findStats, statsOf, hk]
    · simp only [bumpWordCount, findStats, statsOf, hk, if_false] at ih ⊢
      exact ih

theorem findStats_bumpWordCount_ne (vocabulary : Vocabulary) (word w : Str)
    (hne : w ≠ word) :
    findStats (bumpWordCount vocabulary word) w = findStats vocabulary w := by
  induction vocabulary with
  | nil =>
    have : ¬ word = w := fun h => hne h.symm
    simp [bumpWordCount, findStats, this]
  | cons kv rest ih =>
    obtain ⟨k, st⟩ := kv
    by_cases hk : k = word
    · have hww : ¬ word = w := fun h => hne h.symm
      subst hk
      simp [bumpWordCount, findStats, hww]
    · have hww : ¬ w = word := hne
      by_cases hkw : k = w
      · subst hkw
        simp [bumpWordCount, findStats, hww]
      · simp [bumpWordCount, findStats, hk, hkw, ih]

theorem findStats_bumpDocumentCount_self (vocabulary : Vocabulary) (word : Str) :
    findStats (bumpDocumentCount vocabulary word) word =
      some { wordCount := (statsOf vocabulary word).wordCount,
             documentCount := incrInt (statsOf vocabulary word).documentCount } := by
  induction vocabulary with
  | nil => simp [bumpDocumentCount, findStats, statsOf]
  | cons kv rest ih =>
    obtain ⟨k, st⟩ := kv
    by_cases hk : k = word
    · simp [bumpDocumentCount, findStats, statsOf, hk]
    · simp only [bumpDocumentCount, findStats, statsOf, hk, if_false] at ih ⊢
      exact ih

theorem findStats_bumpDocumentCount_ne (vocabulary : Vocabulary) (word w : Str)
    (hne : w ≠ word) :
    findStats (bumpDocumentCount vocabulary word) w = findStats vocabulary w := by
  induction vocabulary with
  | nil =>
    have : ¬ word = w := fun h => hne h.symm
    simp [bumpDocumentCount, findStats, this]
  | cons kv rest ih =>
    obtain ⟨k, st⟩ := kv
    by_cases hk : k = word
    · have hww : ¬ word = w := fun h => hne h.symm
      subst hk
      simp [bumpDocumentCount, findStats, hww]
    · have hww : ¬ w = word := hne
      by_cases hkw : k = w
      · subst hkw
        simp [bumpDocumentCount, findStats, hww]
      · simp [bumpDocumentCount, findStats, hk, hkw, ih]

theorem countWords_find (w : Str) (words : List Str) :
    ∀ (vocabulary : Vocabulary) (uniqueWords : List Str),
      findStats (countWords words vocabulary uniqueWords).1 w =
        if words.count w = 0 then findStats vocabulary w
        else some { wordCount := incrInt^[words.count w] (statsOf vocabulary w).wordCount,
                    documentCount := (statsOf vocabulary w).documentCount } := by
  induction words with
  | nil => intro vocabulary uniqueWords; simp [countWords]
  | cons k rest ih =>
    intro vocabulary uniqueWords
    rw [countWords, ih]
    by_cases hk : k = w
    · subst hk
      have hs : statsOf (bumpWordCount vocabulary k) k =
          { wordCount := incrInt (statsOf vocabulary k).wordCount,
            documentCount := (statsOf vocabulary k).documentCount } := by
        rw [statsOf, findStats_bumpWordCount_self]; rfl
      rw [List.count_cons_self, hs, findStats_bumpWordCount_self]
      by_cases hc : rest.count k = 0
      · simp [hc]
      · simp only [hc, if_false, Nat.add_one_ne_zero, Function.iterate_succ_apply]
    · have hne : w ≠ k := fun h => hk h.symm
      have hs : statsOf (bumpWordCount vocabulary k) w = statsOf vocabulary w := by
        rw [statsOf, statsOf, findStats_bumpWordCount_ne _ _ _ hne]
      rw [List.count_cons_of_ne hne, hs, findStats_bumpWordCount_ne _ _ _ hne]

theorem countDocuments_find (w : Str) (uniqueWords : List Str) :
    ∀ vocabulary : Vocabulary,
      findStats (countDocuments uniqueWords vocabulary) w =
        if uniqueWords.count w = 0 then findStats vocabulary w
        else some { wordCount := (statsOf vocabulary w).wordCount,
                    documentCount :=
                      incrInt^[uniqueWords.count w] (statsOf vocabulary w).documentCount } := by
  induction uniqueWords with
  | nil => intro vocabulary; simp [countDocuments]
  | cons k rest ih =>
    intro vocabulary
    rw [countDocuments, ih]
    by_cases hk : k = w
    · subst hk
      have hs : statsOf (bumpDocumentCount vocabulary k) k =
          { wordCount := (statsOf vocabulary k).wordCount,
            documentCount := incrInt (statsOf vocabulary k).documentCount } := by
        rw [statsOf, findStats_bumpDocumentCount_self]; rfl
      rw [List.count_cons_self, hs, findStats_bumpDocumentCount_self]
      by_cases hc : rest.count k = 0
      · simp [hc]
      · simp only [hc, if_false, Nat.add_one_ne_zero, Function.iterate_succ_apply]
    · have hne : w ≠ k := fun h => hk h.symm
      have hs : statsOf (bumpDocumentCount vocabulary k) w = statsOf vocabulary w := by
        rw [statsOf, statsOf, findStats_bumpDocumentCount_ne _ _ _ hne]
      rw [List.count_cons_of_ne hne, hs, findStats_bumpDocumentCount_ne _ _ _ hne]

theorem countWords_unique (words : List Str) :
    ∀ (vocabulary : Vocabulary) (uniqueWords : List Str), uniqueWords.Nodup →
      (countWords words vocabulary uniqueWords).2.Nodup ∧
        ∀ x, x ∈ (countWords words vocabulary uniqueWords).2 ↔
          x ∈ uniqueWords ∨ x ∈ words := by
  induction words with
  | nil => intro vocabulary uniqueWords h; simp [countWords, h]
  | cons k rest ih =>
    intro vocabulary uniqueWords h
    have hnd : (insertUnique uniqueWords k).Nodup := by
      unfold insertUnique
      by_cases hm : k ∈ uniqueWords
      · simpa [hm] using h
      · simp only [hm, if_false]
        exact List.Nodup.append h (List.nodup_singleton _)
          (by simpa [List.disjoint_singleton] using hm)
    have hmem : ∀ x, x ∈ insertUnique uniqueWords k ↔ x ∈ uniqueWords ∨ x = k := by
      intro x
      unfold insertUnique
      by_cases hm : k ∈ uniqueWords
      · simp only [hm, if_true]
        constructor
        · exact Or.inl
        · rintro (h1 | h1)
          · exact h1
          · rw [h1]; exact hm
      · simp [hm]
    obtain ⟨h1, h2⟩ := ih (bumpWordCount vocabulary k) (insertUnique uniqueWords k) hnd
    refine ⟨by rw [countWords]; exact h1, ?_⟩
    intro x
    rw [countWords, h2, hmem, List.mem_cons, or_assoc]

theorem processDocument_find (vocabulary : Vocabulary) (line w : Str) :
    findStats (processDocument vocabulary line) w =
      if (splitTextIntoWords line).count w = 0 then findStats vocabulary w
      else some
        { wordCount := incrInt^[(splitTextIntoWords line).count w] (statsOf vocabulary w).wordCount,
          documentCount := incrInt (statsOf vocabulary w).documentCount } := by
  obtain ⟨hnd, hmem⟩ := countWords_unique (splitTextIntoWords line) vocabulary []
    List.nodup_nil
  rw [processDocument, countDocuments_find]
  by_cases hc : (splitTextIntoWords line).count w = 0
  · have hnot : w ∉ (countWords (splitTextIntoWords line) vocabulary []).2 := by
      rw [hmem]
      simp only [List.not_mem_nil, false_or]
      exact List.count_eq_zero.mp hc
    rw [List.count_eq_zero.mpr hnot, if_pos rfl, countWords_find, if_pos hc, if_pos hc]
  · have hin : w ∈ (countWords (splitTextIntoWords line) vocabulary []).2 := by
      rw [hmem]
      right
      exact List.count_pos_iff.mp (Nat.pos_of_ne_zero hc)
    have hs : statsOf (countWords (splitTextIntoWords line) vocabulary []).1 w =
        { wordCount :=
            incrInt^[(splitTextIntoWords line).count w] (statsOf vocabulary w).wordCount,
          documentCount := (statsOf vocabulary w).documentCount } := by
      rw [statsOf, countWords_find, if_neg hc]
      rfl
    have hone : List.count w (countWords (splitTextIntoWords line) vocabulary []).2 = 1 := by
      have := List.count_eq_one_of_mem hnd hin
      convert this
    rw [hone, if_neg (by decide), if_neg hc, hs]
    rfl

theorem specWordCount_append (lines : List Str) (line w : Str) :
    specWordCount (lines ++ [line]) w =
      specWordCount lines w + (splitTextIntoWords line).count w := by
  simp [specWordCount]

theorem specDocumentCount_append (lines : List Str) (line w : Str) :
    specDocumentCount (lines ++ [line]) w =
      specDocumentCount lines w + if w ∈ splitTextIntoWords line then 1 else 0 := by
  by_cases h : w ∈ splitTextIntoWords line
  · simp [specDocumentCount, List.filter_append, h]
  · simp [specDocumentCount, List.filter_append, h]

theorem specDocumentCount_le (w : Str) (lines : List Str) :
    specDocumentCount lines w ≤ specWordCount lines w ∧
      (0 < specWordCount lines w → 0 < specDocumentCount lines w) := by
  induction lines using List.reverseRecOn with
  | nil => simp [specDocumentCount, specWordCount]
  | append_singleton lines line ih =>
    rw [specWordCount_append, specDocumentCount_append]
    by_cases h : w ∈ splitTextIntoWords line
    · have := List.count_pos_iff.mpr h
      simp only [h, if_true]
      omega
    · have := List.count_eq_zero.mpr h
      simp only [h, if_false]
      omega

theorem processLines_append (l1 l2 : List Str) (vocabulary : Vocabulary) :
    processLines (l1 ++ l2) vocabulary = processLines l2 (processLines l1 vocabulary) := by
  simp [processLines]

theorem processLines_find (w : Str) (lines : List Str) :
    findStats (processLines lines []) w =
      if specWordCount lines w = 0 then none
      else some { wordCount := wrap32 (specWordCount lines w),
                  documentCount := wrap32 (specDocumentCount lines w) } := by
  induction lines using List.reverseRecOn with
  | nil => simp [processLines, findStats, specWordCount]
  | append_singleton lines line ih =>
    have hstep : processLines (lines ++ [line]) [] =
        processDocument (processLines lines []) line := by
      simp [processLines]
    have hle := specDocumentCount_le w lines
    have hstats : statsOf (processLines lines []) w =
        { wordCount := wrap32 (specWordCount lines w),
          documentCount := wrap32 (specDocumentCount lines w) } := by
      rw [statsOf, ih]
      by_cases hC : specWordCount lines w = 0
      · have hD : specDocumentCount lines w = 0 := by omega
        rw [if_pos hC, hC, hD]
        rfl
      · rw [if_neg hC]
        rfl
    rw [hstep, processDocument_find, specWordCount_append, specDocumentCount_append]
    by_cases hc : (splitTextIntoWords line).count w = 0
    · have hnot : w ∉ splitTextIntoWords line := List.count_eq_zero.mp hc
      rw [if_pos hc, ih, hc, if_neg hnot, Nat.add_zero, Nat.add_zero]
    · have hin : w ∈ splitTextIntoWords line :=
        List.count_pos_iff.mp (Nat.pos_of_ne_zero hc)
      rw [if_neg hc, if_neg (by omega), hstats, iterate_incrInt, incrInt_wrap32, if_pos hin]
      push_cast
      rfl

theorem batchLoop_spec (batchSize : Int) (lines : List Str) :
    ∀ (good : Bool) (batchCount : Int) (vocabulary : Vocabulary),
      ∃ consumed : List Str,
        lines = consumed ++ (batchLoop batchSize lines good batchCount vocabulary).2.lines ∧
        (batchLoop batchSize lines good batchCount vocabulary).1 =
          processLines consumed vocabulary ∧
        (good = true →
          (batchLoop batchSize lines good batchCount vocabulary).2.good = false →
          (batchLoop batchSize lines good batchCount vocabulary).2.lines = []) ∧
        (good = true → batchCount < batchSize → lines ≠ [] → consumed ≠ []) := by
  induction lines with
  | nil =>
    intro good batchCount vocabulary
    refine ⟨[], ?_, ?_, ?_, ?_⟩
    · by_cases h : batchCount < batchSize <;> simp [batchLoop, h]
    · by_cases h : batchCount < batchSize <;> simp [batchLoop, h, processLines]
    · by_cases h : batchCount < batchSize <;> simp [batchLoop, h]
    · intro _ _ h; exact absurd rfl h
  | cons line rest ih =>
    intro good batchCount vocabulary
    by_cases h : batchCount < batchSize
    · cases good with
      | false =>
        refine ⟨[], ?_, ?_, ?_, ?_⟩ <;> simp [batchLoop, h, processLines]
      | true =>
        obtain ⟨consumed, h1, h2, h3, _⟩ :=
          ih true (batchCount + 1) (processDocument vocabulary line)
        have hb : batchLoop batchSize (line :: rest) true batchCount vocabulary =
            batchLoop batchSize rest true (batchCount + 1)
              (processDocument vocabulary line) := by
          simp [batchLoop, h]
        rw [hb]
        refine ⟨line :: consumed, ?_, ?_, fun _ => h3 rfl, fun _ _ _ => by simp⟩
        · rw [List.cons_append, ← h1]
        · rw [h2]; rfl
    · refine ⟨[], ?_, ?_, ?_, ?_⟩
      · simp [batchLoop, h]
      · simp [batchLoop, h, processLines]
      · intro hg
        simp [batchLoop, h, hg]
      · intro _ hlt; exact absurd hlt h

theorem batchesLoop_eq (batchSize : Int) (hb : 1 ≤ batchSize) :
    ∀ (fuel : Nat) (lines : List Str) (vocabulary : Vocabulary),
      lines.length + 2 ≤ fuel →
      batchesLoop batchSize fuel ⟨lines, true⟩ vocabulary =
        some (processLines lines vocabulary) := by
  intro fuel
  induction fuel with
  | zero => intro lines vocabulary h; omega
  | succ n ih =>
    intro lines vocabulary hfuel
    obtain ⟨consumed, h1, h2, h3, h4⟩ := batchLoop_spec batchSize lines true 0 vocabulary
    rw [batchesLoop]
    simp only [if_true, processBatch]
    generalize hr : batchLoop batchSize lines true 0 vocabulary = r at h1 h2 h3 h4
    obtain ⟨v', input'⟩ := r
    obtain ⟨rest, good'⟩ := input'
    simp only at h1 h2 h3 h4
    cases good' with
    | false =>
      have hrest : rest = [] := h3 trivial rfl
      obtain ⟨m, rfl⟩ : ∃ m, n = m + 1 := ⟨n - 1, by omega⟩
      rw [batchesLoop]
      simp only [Bool.false_eq_true, if_false]
      rw [h2, h1, hrest, List.append_nil]
    | true =>
      have hne : lines ≠ [] := by
        intro h0
        rw [h0] at hr
        simp [batchLoop, show (0 : Int) < batchSize by omega] at hr
      have hc := h4 trivial (by omega) hne
      have hlen : rest.length < lines.length := by
        have : lines.length = consumed.length + rest.length := by
          rw [h1, List.length_append]
        have : 0 < consumed.length := List.length_pos.mpr hc
        omega
      rw [ih rest v' (by omega), h2, ← processLines_append, ← h1]

theorem batchesLoop_diverges (batchSize : Int) (hb : batchSize ≤ 0) :
    ∀ (fuel : Nat) (lines : List Str) (vocabulary : Vocabulary),
      batchesLoop batchSize fuel ⟨lines, true⟩ vocabulary = none := by
  intro fuel
  induction fuel with
  | zero => intro lines vocabulary; rfl
  | succ n ih =>
    intro lines vocabulary
    have hr : batchLoop batchSize lines true 0 vocabulary = (vocabulary, ⟨lines, true⟩) := by
      cases lines <;> simp [batchLoop, show ¬ (0 : Int) < batchSize by omega]
    rw [batchesLoop]
    simp only [if_true, processBatch, hr]
    exact ih lines vocabulary

/-! ## C18: tallies of the vocabulary stage -/

/-- C18. Started on the empty vocabulary, after the lines `lines` have been
consumed the map holds exactly the words that occur in `splitTextIntoWords` of
some line; for every word of the map that occurs fewer than `2^31` times in all
lines (its `int` counter does not overflow), `wordCount` is the number of
occurrences of the word in all lines, `documentCount` the number of lines in
which it occurs, and `1 ≤ documentCount ≤ wordCount`.  Every call of `processBatch`, for every
`batchSize`, adds the tallies of the lines it consumes and nothing else, and
the loop of `main` ends, for every `batchSize ≥ 1`, with the vocabulary of all
lines, which does not depend on `batchSize`. -/
theorem vocabulary_tallies (lines : List Str) :
    (∀ (word : Str) (stats : WordStats), specWordCount lines word < 2 ^ 31 →
        findStats (processLines lines []) word = some stats →
        stats.wordCount = specWordCount lines word ∧
          stats.documentCount = specDocumentCount lines word ∧
          1 ≤ stats.documentCount ∧ stats.documentCount ≤ stats.wordCount) ∧
    (∀ word : Str,
      (findStats (processLines lines []) word).isSome = true ↔
        0 < specWordCount lines word) ∧
    (∀ (inputFile : FileStream) (vocabulary : Vocabulary) (batchSize : Int),
      ∃ consumed : List Str,
        inputFile.lines = consumed ++ (processBatch inputFile vocabulary batchSize).2.lines ∧
          (processBatch inputFile vocabulary batchSize).1 =
            processLines consumed vocabulary) ∧
    (∀ (batchSize : Int) (fuel : Nat), 1 ≤ batchSize → lines.length + 2 ≤ fuel →
      batchesLoop batchSize fuel ⟨lines, true⟩ [] = some (processLines lines [])) := by
  refine ⟨?_, ?_, ?_, ?_⟩
  · intro word stats hsmall hfind
    rw [processLines_find] at hfind
    have hle := specDocumentCount_le word lines
    by_cases h0 : specWordCount lines word = 0
    · rw [if_pos h0] at hfind
      cases hfind
    · rw [if_neg h0] at hfind
      have hstats := (Option.some.inj hfind).symm
      have hw : wrap32 (specWordCount lines word) = (specWordCount lines word : Int) :=
        wrap32_of_range _ (by omega) (by omega)
      have hd : wrap32 (specDocumentCount lines word) =
          (specDocumentCount lines word : Int) :=
        wrap32_of_range _ (by omega) (by omega)
      rw [hstats]
      refine ⟨hw, hd, ?_, ?_⟩
      · show (1 : Int) ≤ wrap32 (specDocumentCount lines word)
        rw [hd]; omega
      · show wrap32 (specDocumentCount lines word) ≤ wrap32 (specWordCount lines word)
        rw [hd, hw]; omega
  · intro word
    rw [processLines_find]
    by_cases h0 : specWordCount lines word = 0
    · simp [h0]
    · simp [h0]
      omega
  · intro inputFile vocabulary batchSize
    obtain ⟨consumed, h1, h2, _, _⟩ :=
      batchLoop_spec batchSize inputFile.lines inputFile.good 0 vocabulary
    exact ⟨consumed, h1, h2⟩
  · intro batchSize fuel hb hfuel
    exact batchesLoop_eq batchSize hb fuel lines [] hfuel

/-- C18, at the lines `the cat the`, `a cat` with `batchSize = 1`: the loop of
`main` ends with the vocabulary of both lines, in which `the` has `wordCount`
`2` and `documentCount` `1`. -/
theorem vocabulary_tallies_witness :
    batchesLoop 1 4 ⟨["the cat the".toList, "a cat".toList], true⟩ [] =
        some (processLines ["the cat the".toList, "a cat".toList] []) ∧
      ((2 : Int) = specWordCount ["the cat the".toList, "a cat".toList] "the".toList ∧
        (1 : Int) = specDocumentCount ["the cat the".toList, "a cat".toList] "the".toList ∧
        (1 : Int) ≤ 1 ∧ (1 : Int) ≤ 2) :=
  ⟨(vocabulary_tallies ["the cat the".toList, "a cat".toList]).2.2.2 1 4 (by decide)
      (by decide),
    (vocabulary_tallies ["the cat the".toList, "a cat".toList]).1
      "the".toList { wordCount := 2, documentCount := 1 } (by decide) (by decide)⟩

end CoMatrix
